import Mathlib

/-!
Shallow embedding of the memory-management core of the mat-os kernel.

Sources embedded here:
- `src/kernel/allocator.cpp`: the bitmap-backed physical frame allocator
  (`kernel::alloc::init`, `kernel::alloc::allocate_page`,
  `kernel::alloc::free_page`, class `PageBitmap`, `physical_to_virtual`,
  `virtual_to_physical`).
- `src/unnamed/part_000` (kernel/memory/paging.hpp) and `src/unnamed/part_001`
  (its implementation file): `kernel::paging::PageTableEntry` and its bit-field
  accessors.

Machine integers (`u64`, `uptr`, `usize`) are modelled as `Nat` with explicit
reduction modulo `2 ^ 64` at the points where the C++ computation can wrap.
Addresses are plain `Nat` values (the C++ `PhysicalAddress` and
`VirtualAddress` wrappers are value types around `uptr`).  Code paths that end
in `halt()` are modelled by returning `none`; in the source every such path
halts before mutating the bitmap, so `none` carries no state change.

The bit masks of `PageBitmap` and `PageTableEntry::get_bit` are built from
the expression `1 << n` whose left operand is a 32-bit `int`: the result is
the single bit `2 ^ n` only for `n < 31`, while at `n = 31` the C++20-defined
wrap gives `INT_MIN`, which sign-extends to the `u64` value
`2 ^ 64 - 2 ^ 31` (bits 31 to 63), and for `n >= 32` the shift is undefined
behaviour.  The embedding therefore has two layers: `intShift1` /
`PageBitmap.getCpp` / `PageBitmap.setCpp` / `PageTableEntry.get_bit` and the
allocator functions suffixed `Cpp` (with outcome type `CppOutcome`,
distinguishing a returned value, a `halt()` and undefined behaviour) carry
the exact semantics, while `PageBitmap.get` / `PageBitmap.set` and the
unsuffixed allocator functions idealize every mask to a single bit, which is
exact whenever the bit position inside the 64-bit word stays below 31
(lemmas `getCpp_low`, `setCpp_true_low`, `setCpp_false_low`).
-/

def PAGE_SIZE : Nat := 4096

def U64_LIMIT : Nat := 2 ^ 64

/-- Complement of a value inside a 64-bit word, the C++ `~x` on `u64`.  For
arguments below `2 ^ 64` this is the exact bitwise complement; conjunction
with it also truncates any (non-representable) higher bits of the other
operand, which matches the fact that `u64` values never have such bits. -/
def u64Not (x : Nat) : Nat := (U64_LIMIT - 1) ^^^ x

/-- Modelled from the spec: `mat::math::bit_mask<u64>(n)` from `stl/math.hpp`
(the header is not part of the sources); a mask of the `n` lowest bits, as
used by `PageTableEntry::set_addr` and `PageTableEntry::set_available`. -/
def bit_mask (n : Nat) : Nat := (1 <<< n) - 1

/-- Modelled from the spec: `mat::math::div_ceil(a, b)` from `stl/math.hpp`
(the header is not part of the sources); division rounding up, as used by
`kernel::alloc::init` for the page count of the bitmap. -/
def div_ceil (a b : Nat) : Nat := (a + b - 1) / b

/-- The value of the C++ expression `1 << n` as it flows into a `u64`
context.  The literal `1` has type `int` (32 bits), so the shift is a signed
32-bit shift: for `n < 31` the result is the single bit `2 ^ n`; for
`n = 31` the result is `INT_MIN` (well defined since C++20), whose
conversion to `u64` sign-extends to `2 ^ 64 - 2 ^ 31`, i.e. bits 31 to 63
all set; for `n >= 32` the shift is undefined behaviour, modelled as
`none`.  Both `PageBitmap` (allocator.cpp) and `PageTableEntry::get_bit`
build their masks this way. -/
def intShift1 (n : Nat) : Option Nat :=
  if n < 31 then some (1 <<< n)
  else if n = 31 then some (U64_LIMIT - (1 <<< 31))
  else none

/-- One 64-bit hardware page-table entry, `kernel::paging::PageTableEntry`
from paging.hpp.  `m_value` is the raw `u64`. -/
structure PageTableEntry where
  m_value : Nat
deriving DecidableEq

/-- PageTableEntry::get_bit: `m_value & (1 << idx)`, read as a Bool.  The
`1` is an `int`, so the mask is `intShift1 idx`: a single bit only for
`idx < 31`; at `idx = 31` the sign-extended mask tests bits 31 to 63 at
once, and for `idx >= 32` (in particular the ExecutionDisabled getter at
bit 63) the shift is undefined behaviour, modelled as `none`. -/
def PageTableEntry.get_bit (e : PageTableEntry) (idx : Nat) : Option Bool :=
  match intShift1 idx with
  | none => none
  | some m => some (e.m_value &&& m != 0)

/-- Modelled from the spec: `mat::math::set_bit(m_value, idx, value)` from
`stl/math.hpp` (not in the sources); a read-modify-write of a single bit that
leaves all other bits unchanged, used by `PageTableEntry::set_bit`. -/
def PageTableEntry.set_bit (e : PageTableEntry) (idx : Nat) (value : Bool) : PageTableEntry :=
  if value then ⟨e.m_value ||| (1 <<< idx)⟩
  else ⟨e.m_value &&& u64Not (1 <<< idx)⟩

/-- PageTableEntry::addr: `m_value & (((1 << 52) - 1) & ~((1 << 12) - 1))`. -/
def PageTableEntry.addr (e : PageTableEntry) : Nat :=
  e.m_value &&& (((1 <<< 52) - 1) &&& u64Not ((1 <<< 12) - 1))

/-- PageTableEntry::set_addr:
`m_value = (m_value & ~(bit_mask(48 - 12) << 12)) | (value & ~bit_mask(12) & bit_mask(48))`. -/
def PageTableEntry.set_addr (e : PageTableEntry) (value : Nat) : PageTableEntry :=
  ⟨(e.m_value &&& u64Not (bit_mask (48 - 12) <<< 12)) |||
    (value &&& u64Not (bit_mask 12) &&& bit_mask 48)⟩

def PageTableEntry.is_present (e : PageTableEntry) : Option Bool := e.get_bit 0

def PageTableEntry.set_present (e : PageTableEntry) (value : Bool) : PageTableEntry :=
  e.set_bit 0 value

def PageTableEntry.is_writable (e : PageTableEntry) : Option Bool := e.get_bit 1

def PageTableEntry.set_writable (e : PageTableEntry) (value : Bool) : PageTableEntry :=
  e.set_bit 1 value

def PageTableEntry.is_user (e : PageTableEntry) : Option Bool := e.get_bit 2

def PageTableEntry.set_user (e : PageTableEntry) (value : Bool) : PageTableEntry :=
  e.set_bit 2 value

def PageTableEntry.is_ps (e : PageTableEntry) : Option Bool := e.get_bit 7

def PageTableEntry.set_ps (e : PageTableEntry) (value : Bool) : PageTableEntry :=
  e.set_bit 7 value

def PageTableEntry.is_execution_disabled (e : PageTableEntry) : Option Bool := e.get_bit 63

def PageTableEntry.set_execution_disabled (e : PageTableEntry) (value : Bool) :
    PageTableEntry :=
  e.set_bit 63 value

/-- PageTableEntry::get_available:
`(value() >> 47 & 0b1111111111100000) | (value() >> 7 & 0b11110)`; the source
deliberately leaves the lowest bit out (it can be the Dirty bit of a leaf
entry). -/
def PageTableEntry.get_available (e : PageTableEntry) : Nat :=
  (e.m_value >>> 47 &&& 0b1111111111100000) ||| (e.m_value >>> 7 &&& 0b11110)

/-- PageTableEntry::set_available.  The parameter is a `u16`, hence the
explicit reduction modulo `2 ^ 16`; the two assignments of the source are
performed in order. -/
def PageTableEntry.set_available (e : PageTableEntry) (value : Nat) : PageTableEntry :=
  let v := value % 2 ^ 16
  let m1 := (e.m_value &&& u64Not (bit_mask 4 <<< 8)) ||| ((v &&& 0b11110) <<< 7)
  ⟨(m1 &&& u64Not (bit_mask 11 <<< 52)) ||| (v >>> 5 <<< 52)⟩

/-- PageTableEntry::clear: zeroes the entry. -/
def PageTableEntry.clear (_e : PageTableEntry) : PageTableEntry := ⟨0⟩

/-- One memory-map record handed over by the bootloader
(`limine_memmap_entry`): physical base, byte length and type tag. -/
structure MemMapEntry where
  base : Nat
  length : Nat
  type : Nat
deriving DecidableEq

/-- LIMINE_MEMMAP_USABLE. -/
def usableType : Nat := 0

/-- Idealized PageBitmap::get on the bitmap viewed as one natural number
(the little-endian concatenation of the `u64` array elements).  The C++
class splits `index` into an array slot `index / 64` and a bit
`index % 64` and masks the element with `1 << bit_index`; this definition
idealizes that mask to the single bit, which matches the C++20 value
exactly when `index % 64 < 31`.  `PageBitmap.getCpp` below is the exact
semantics (sign-extended mask at bit position 31, undefined shift at bit
positions 32 to 63), and `getCpp_low` proves the agreement on the low
range. -/
def PageBitmap.get (bm index : Nat) : Bool := bm.testBit index

/-- Idealized PageBitmap::set on the bitmap viewed as one natural number.
The C++ class does `element |= bit_mask` or `element &= ~bit_mask` with
`bit_mask = 1 << (index % 64)` in the slot holding the bit; this definition
idealizes the mask to the single bit `index` of the combined value, which
matches the C++20 value exactly when `index % 64 < 31`.
`PageBitmap.setCpp` below is the exact semantics, and `setCpp_true_low` /
`setCpp_false_low` prove the agreement on the low range. -/
def PageBitmap.set (bm index : Nat) (value : Bool) : Nat :=
  if value then bm ||| (1 <<< index)
  else if bm.testBit index then bm - (1 <<< index) else bm

/-- PageBitmap::get with the exact C++20 mask semantics.  `array_index` is
`index / 64`, `bit_index` is `index % 64`, the element
`m_data[array_index]` is `(bm >>> (64 * array_index)) % 2 ^ 64` of the
concatenated value, and the mask is `intShift1 bit_index` (`1` being an
`int`): a single bit below position 31, the sign-extended block of bits 31
to 63 at position 31, and undefined behaviour (`none`) from position 32
on. -/
def PageBitmap.getCpp (bm index : Nat) : Option Bool :=
  match intShift1 (index % 64) with
  | none => none
  | some mask => some ((bm >>> (64 * (index / 64))) % U64_LIMIT &&& mask != 0)

/-- PageBitmap::set with the exact C++20 mask semantics; the mask is
`intShift1 (index % 64)` as in `PageBitmap.getCpp`.  On the concatenated
value, `element |= mask` is `bm ||| (mask <<< (64 * array_index))`, and
`element &= ~mask` clears exactly the set bits the shifted mask covers,
i.e. subtracts `bm &&& (mask <<< (64 * array_index))` (the mask stays
inside the 64-bit slot, so no other element is touched). -/
def PageBitmap.setCpp (bm index : Nat) (value : Bool) : Option Nat :=
  match intShift1 (index % 64) with
  | none => none
  | some mask =>
    some (if value then bm ||| mask <<< (64 * (index / 64))
      else bm - (bm &&& mask <<< (64 * (index / 64))))

/-- Allocator state once `kernel::alloc::init` has run: the saved memory map,
the HHDM offset (`hhdm_base`) and the page bitmap. -/
structure AllocState where
  memmap : List MemMapEntry
  hhdm : Nat
  bitmap : Nat
deriving DecidableEq

/-- physical_to_virtual from allocator.cpp: `physical_address + hhdm_base`
on `uptr`. -/
def physical_to_virtual (hhdm p : Nat) : Nat := (p + hhdm) % U64_LIMIT

/-- virtual_to_physical from allocator.cpp: `virtual_address - hhdm_base`
on `uptr`, i.e. wrapping subtraction modulo `2 ^ 64`. -/
def virtual_to_physical (hhdm v : Nat) : Nat :=
  (v + (U64_LIMIT - hhdm % U64_LIMIT)) % U64_LIMIT

/-- Inner loop of `kernel::alloc::allocate_page` over one usable entry:
`for (size = PAGE_SIZE; size <= length; size += PAGE_SIZE)` checks the bitmap
bit of each page of the region, incrementing `page_index` past occupied
pages, and on the first clear bit yields `base + size - PAGE_SIZE`.
`remaining` is the number of loop iterations left, `addr` the physical
address of the candidate page (`base + k * PAGE_SIZE` reduced mod `2 ^ 64`,
as the C++ `uptr` arithmetic does).  Returns the final `page_index` and the
`page_address` value, which stays `0` when no clear bit was found. -/
def scanRegion (bm pi addr remaining : Nat) : Nat × Nat :=
  match remaining with
  | 0 => (pi, 0)
  | Nat.succ m =>
    if PageBitmap.get bm pi then
      scanRegion bm (pi + 1) ((addr + PAGE_SIZE) % U64_LIMIT) m
    else (pi, addr)

/-- Outer loop of `kernel::alloc::allocate_page`: walk the memory-map entries
in order, scan each usable one, and stop at the first one whose scan produced
a nonzero `page_address`.  Note the faithfully reproduced sentinel: a hit
whose physical address is `0` is indistinguishable from no hit, so the walk
moves on to the next entry with `page_index` left where the hit occurred. -/
def allocScan (bm : Nat) : List MemMapEntry → Nat → Nat × Nat
  | [], pi => (pi, 0)
  | e :: rest, pi =>
    if e.type = usableType then
      match scanRegion bm pi (e.base % U64_LIMIT) (e.length / PAGE_SIZE) with
      | (pi2, pa) => if pa = 0 then allocScan bm rest pi2 else (pi2, pa)
    else allocScan bm rest pi

/-- kernel::alloc::allocate_page.  `none` is the fatal out-of-memory path
(`halt()` after the scan found no page); otherwise the result is the HHDM
virtual address of the page together with the state whose bitmap has the
found index marked allocated. -/
def kernel.alloc.allocate_page (s : AllocState) : Option (Nat × AllocState) :=
  match allocScan s.bitmap s.memmap 0 with
  | (pi, pa) =>
    if pa = 0 then none
    else some (physical_to_virtual s.hhdm pa,
      ⟨s.memmap, s.hhdm, PageBitmap.set s.bitmap pi true⟩)

/-- Region search of `kernel::alloc::free_page`: walk the memory-map entries,
accumulate `length / PAGE_SIZE` for each usable entry that does not contain
the physical address, and return the global frame index on the first usable
entry that does contain it (`base <= p && p < base + length`, the sum being
`u64` arithmetic).  `none` is the not-found case. -/
def findRegion : List MemMapEntry → Nat → Nat → Option Nat
  | [], _, _ => none
  | e :: rest, p, pi =>
    if e.type = usableType then
      if e.base ≤ p ∧ p < (e.base + e.length) % U64_LIMIT then
        some (pi + (p - e.base) / PAGE_SIZE)
      else findRegion rest p (pi + e.length / PAGE_SIZE)
    else findRegion rest p pi

/-- kernel::alloc::free_page.  `none` covers the two `halt()` paths: a
pointer that is not page aligned, and a physical address outside every
usable region; both halt before the bitmap is touched.  Otherwise the bit of
the computed frame index is cleared. -/
def kernel.alloc.free_page (s : AllocState) (pointer : Nat) : Option AllocState :=
  let address := pointer % U64_LIMIT
  if address % PAGE_SIZE ≠ 0 then none
  else
    match findRegion s.memmap (virtual_to_physical s.hhdm address) 0 with
    | none => none
    | some pi => some ⟨s.memmap, s.hhdm, PageBitmap.set s.bitmap pi false⟩

/-- Total length of the usable memory-map entries, the `usable_memory`
accumulation of `kernel::alloc::init`. -/
def usable_memory : List MemMapEntry → Nat
  | [] => 0
  | e :: rest =>
    (if e.type = usableType then e.length else 0) + usable_memory rest

/-- The `pages` local of `kernel::alloc::init`: `usable_memory / PAGE_SIZE`. -/
def pagesCount (mm : List MemMapEntry) : Nat := usable_memory mm / PAGE_SIZE

/-- The `bitmap_array_size` local of `kernel::alloc::init`: `pages / 8`
(note: integer division, i.e. rounding down). -/
def bitmap_array_size (mm : List MemMapEntry) : Nat := pagesCount mm / 8

/-- The `bitmap_page_size` local of `kernel::alloc::init`:
`div_ceil(bitmap_array_size, PAGE_SIZE)`. -/
def bitmap_page_size (mm : List MemMapEntry) : Nat :=
  div_ceil (bitmap_array_size mm) PAGE_SIZE

/-- Placement loop of `kernel::alloc::init`: find the first usable entry
whose length is at least `sz` bytes, accumulating in `skipped` the page
count of every earlier usable entry.  Returns `(skipped_pages, base)`. -/
def findBitmapSpot (sz : Nat) : List MemMapEntry → Nat → Option (Nat × Nat)
  | [], _ => none
  | e :: rest, skipped =>
    if e.type = usableType then
      if sz ≤ e.length then some (skipped, e.base)
      else findBitmapSpot sz rest (skipped + e.length / PAGE_SIZE)
    else findBitmapSpot sz rest skipped

/-- Marking loop of `kernel::alloc::init`:
`for (i = 0; i < bitmap_page_size; ++i) bitmap.set(i + skipped_pages, true)`
applied to a bitmap that was just cleared to zero. -/
def markBitmapFrames (bm skipped : Nat) : Nat → Nat
  | 0 => bm
  | Nat.succ i => PageBitmap.set (markBitmapFrames bm skipped i) (i + skipped) true

/-- kernel::alloc::init, given the firmware memory map and the HHDM offset
(the two bootloader responses).  `none` is the fatal path taken when no
usable region can host the bitmap; the source detects that case through the
virtual bitmap address still being the null pointer, so a spot whose HHDM
address wraps to `0` is (faithfully) also treated as not found. -/
def kernel.alloc.init (mm : List MemMapEntry) (hhdm : Nat) : Option AllocState :=
  match findBitmapSpot (bitmap_array_size mm) mm 0 with
  | none => none
  | some (skipped, base) =>
    if physical_to_virtual hhdm base = 0 then none
    else some ⟨mm, hhdm, markBitmapFrames 0 skipped (bitmap_page_size mm)⟩

/-- Iterated `allocate_page`, discarding the returned pointers: `some` only
when all `n` calls succeed. -/
def allocN (s : AllocState) : Nat → Option AllocState
  | 0 => some s
  | Nat.succ n =>
    match kernel.alloc.allocate_page s with
    | none => none
    | some (_, s2) => allocN s2 n

/-- Outcome of running a piece of the C++ code under the exact C++20
semantics: a returned value, a fatal `halt()` path, or undefined behaviour
(an out-of-range `int` shift).  Both `halt` and `undef` occur before the
code would mutate the bitmap, so they carry no state. -/
inductive CppOutcome (α : Type) where
  | ok : α → CppOutcome α
  | halt : CppOutcome α
  | undef : CppOutcome α
deriving DecidableEq

/-- Inner loop of `kernel::alloc::allocate_page` (as `scanRegion`), with
the bitmap read through the exact `PageBitmap.getCpp`; `none` is undefined
behaviour reached when the scan reads a frame whose bit position inside
its 64-bit word is 32 or above. -/
def scanRegionCpp (bm pi addr remaining : Nat) : Option (Nat × Nat) :=
  match remaining with
  | 0 => some (pi, 0)
  | Nat.succ m =>
    match PageBitmap.getCpp bm pi with
    | none => none
    | some b =>
      if b then scanRegionCpp bm (pi + 1) ((addr + PAGE_SIZE) % U64_LIMIT) m
      else some (pi, addr)

/-- Outer loop of `kernel::alloc::allocate_page` (as `allocScan`) over the
exact scan; `none` propagates undefined behaviour. -/
def allocScanCpp (bm : Nat) : List MemMapEntry → Nat → Option (Nat × Nat)
  | [], pi => some (pi, 0)
  | e :: rest, pi =>
    if e.type = usableType then
      match scanRegionCpp bm pi (e.base % U64_LIMIT) (e.length / PAGE_SIZE) with
      | none => none
      | some (pi2, pa) =>
        if pa = 0 then allocScanCpp bm rest pi2 else some (pi2, pa)
    else allocScanCpp bm rest pi

/-- kernel::alloc::allocate_page under the exact C++20 bitmap semantics:
`halt` is the fatal out-of-memory path (reached before the bitmap write),
`undef` an out-of-range `int` shift in `PageBitmap::get` or
`PageBitmap::set`. -/
def kernel.alloc.allocate_pageCpp (s : AllocState) : CppOutcome (Nat × AllocState) :=
  match allocScanCpp s.bitmap s.memmap 0 with
  | none => CppOutcome.undef
  | some (pi, pa) =>
    if pa = 0 then CppOutcome.halt
    else
      match PageBitmap.setCpp s.bitmap pi true with
      | none => CppOutcome.undef
      | some bm2 =>
        CppOutcome.ok (physical_to_virtual s.hhdm pa, ⟨s.memmap, s.hhdm, bm2⟩)

/-- kernel::alloc::free_page under the exact C++20 bitmap semantics: the
two `halt` paths (misaligned pointer, address in no usable region) occur
before the bitmap write; `undef` is an out-of-range `int` shift in
`PageBitmap::set` when the computed frame index has bit position 32 or
above inside its 64-bit word. -/
def kernel.alloc.free_pageCpp (s : AllocState) (pointer : Nat) : CppOutcome AllocState :=
  let address := pointer % U64_LIMIT
  if address % PAGE_SIZE ≠ 0 then CppOutcome.halt
  else
    match findRegion s.memmap (virtual_to_physical s.hhdm address) 0 with
    | none => CppOutcome.halt
    | some pi =>
      match PageBitmap.setCpp s.bitmap pi false with
      | none => CppOutcome.undef
      | some bm2 => CppOutcome.ok ⟨s.memmap, s.hhdm, bm2⟩

/-- Marking loop of `kernel::alloc::init` over the exact
`PageBitmap.setCpp`; `none` propagates undefined behaviour. -/
def markBitmapFramesCpp (bm skipped : Nat) : Nat → Option Nat
  | 0 => some bm
  | Nat.succ i =>
    match markBitmapFramesCpp bm skipped i with
    | none => none
    | some b => PageBitmap.setCpp b (i + skipped) true

/-- kernel::alloc::init under the exact C++20 bitmap semantics (compare
`kernel.alloc.init`): `halt` when no usable region can host the bitmap
(including a spot whose HHDM address wraps to the null pointer), `undef`
when the marking loop performs an out-of-range `int` shift. -/
def kernel.alloc.initCpp (mm : List MemMapEntry) (hhdm : Nat) : CppOutcome AllocState :=
  match findBitmapSpot (bitmap_array_size mm) mm 0 with
  | none => CppOutcome.halt
  | some (skipped, base) =>
    if physical_to_virtual hhdm base = 0 then CppOutcome.halt
    else
      match markBitmapFramesCpp 0 skipped (bitmap_page_size mm) with
      | none => CppOutcome.undef
      | some bm => CppOutcome.ok ⟨mm, hhdm, bm⟩

/-- Iterated `allocate_pageCpp`, discarding the returned pointers; `ok`
only when all `n` calls return. -/
def allocNCpp (s : AllocState) : Nat → CppOutcome AllocState
  | 0 => CppOutcome.ok s
  | Nat.succ n =>
    match kernel.alloc.allocate_pageCpp s with
    | CppOutcome.ok (_, s2) => allocNCpp s2 n
    | CppOutcome.halt => CppOutcome.halt
    | CppOutcome.undef => CppOutcome.undef

/-! Bit-level helper lemmas used throughout. -/

theorem testBit_add_two_pow (a i : Nat) (h : a.testBit i = false) (j : Nat) :
    (a + 2 ^ i).testBit j = (a.testBit j || decide (j = i)) := by
  have hpos : 0 < 2 ^ i := Nat.two_pow_pos i
  rcases Nat.lt_trichotomy j i with hj | hj | hj
  · have hij : i - j - 1 + 1 + j = i := by omega
    have h2 : (2 : Nat) ^ i = 2 ^ (i - j - 1 + 1) * 2 ^ j := by
      calc (2 : Nat) ^ i = 2 ^ (i - j - 1 + 1 + j) := by rw [hij]
        _ = 2 ^ (i - j - 1 + 1) * 2 ^ j := by rw [Nat.pow_add]
    rw [Nat.testBit_to_div_mod, Nat.testBit_to_div_mod, h2,
      Nat.add_mul_div_right _ _ (Nat.two_pow_pos j)]
    have hne : decide (j = i) = false := by simp; omega
    rw [hne]
    have h3 : (2 : Nat) ^ (i - j - 1 + 1) = 2 * 2 ^ (i - j - 1) := by
      rw [Nat.pow_succ]; exact Nat.mul_comm _ _
    rw [h3, Bool.or_false, decide_eq_decide]
    omega
  · subst hj
    have h1 : a / 2 ^ j % 2 = 0 := by
      rw [Nat.testBit_to_div_mod] at h
      simp only [decide_eq_false_iff_not] at h
      omega
    rw [Nat.testBit_to_div_mod, Nat.testBit_to_div_mod, Nat.add_div_right _ hpos]
    have h2 : decide ((a / 2 ^ j + 1) % 2 = 1) = true := by
      simp only [decide_eq_true_eq]; omega
    have h3 : decide (a / 2 ^ j % 2 = 1) = false := by
      simp only [decide_eq_false_iff_not]; omega
    rw [h2, h3]
    simp
  · have hr : a % 2 ^ j + 2 ^ i < 2 ^ j := by
      have hb : (a % 2 ^ j).testBit i = false := by
        rw [Nat.testBit_mod_two_pow, h]; simp
      rw [Nat.testBit_to_div_mod] at hb
      have hrlt : a % 2 ^ j < 2 ^ j := Nat.mod_lt _ (Nat.two_pow_pos j)
      have hq2 : a % 2 ^ j / 2 ^ i % 2 = 0 := by
        simp only [decide_eq_false_iff_not] at hb; omega
      have hs : a % 2 ^ j % 2 ^ i < 2 ^ i := Nat.mod_lt _ hpos
      have hdm : 2 ^ i * (a % 2 ^ j / 2 ^ i) + a % 2 ^ j % 2 ^ i = a % 2 ^ j :=
        Nat.div_add_mod _ _
      have hBA : (2 : Nat) ^ j = 2 ^ (j - i) * 2 ^ i := by
        rw [← Nat.pow_add]; congr 1; omega
      have hq2lt : a % 2 ^ j / 2 ^ i < 2 ^ (j - i) := by
        by_contra hcon
        push_neg at hcon
        have hmm : 2 ^ (j - i) * 2 ^ i ≤ (a % 2 ^ j / 2 ^ i) * 2 ^ i :=
          Nat.mul_le_mul_right _ hcon
        have hmm2 : (a % 2 ^ j / 2 ^ i) * 2 ^ i = 2 ^ i * (a % 2 ^ j / 2 ^ i) :=
          Nat.mul_comm _ _
        omega
      have hBeven : (2 : Nat) ^ (j - i) = 2 * 2 ^ (j - i - 1) := by
        calc (2 : Nat) ^ (j - i) = 2 ^ (j - i - 1 + 1) := by congr 1; omega
          _ = 2 ^ (j - i - 1) * 2 := by rw [Nat.pow_succ]
          _ = 2 * 2 ^ (j - i - 1) := Nat.mul_comm _ _
      have hq22 : a % 2 ^ j / 2 ^ i + 2 ≤ 2 ^ (j - i) := by omega
      have hmul : 2 ^ i * (a % 2 ^ j / 2 ^ i + 2) ≤ 2 ^ i * 2 ^ (j - i) :=
        Nat.mul_le_mul_left _ hq22
      have hexp : 2 ^ i * (a % 2 ^ j / 2 ^ i + 2) =
          2 ^ i * (a % 2 ^ j / 2 ^ i) + 2 ^ i + 2 ^ i := by ring
      have hBA2 : (2 : Nat) ^ i * 2 ^ (j - i) = 2 ^ j := by
        rw [← Nat.pow_add]; congr 1; omega
      omega
    have hdiv : (a + 2 ^ i) / 2 ^ j = a / 2 ^ j := by
      conv_lhs => rw [← Nat.div_add_mod a (2 ^ j)]
      rw [Nat.add_assoc, Nat.mul_add_div (Nat.two_pow_pos j),
        Nat.div_eq_of_lt hr, Nat.add_zero]
    rw [Nat.testBit_to_div_mod, Nat.testBit_to_div_mod, hdiv]
    have hne : decide (j = i) = false := by simp; omega
    rw [hne, Bool.or_false]

theorem testBit_sub_two_pow (a i : Nat) (h : a.testBit i = true) (j : Nat) :
    (a - 2 ^ i).testBit j = (a.testBit j && decide (j ≠ i)) := by
  have hpos : 0 < 2 ^ i := Nat.two_pow_pos i
  have hd : a / 2 ^ i % 2 = 1 := by
    rw [Nat.testBit_to_div_mod] at h; simpa using h
  have hle : 2 ^ i ≤ a := by
    rcases Nat.lt_or_ge a (2 ^ i) with hlt | hge
    · rw [Nat.div_eq_of_lt hlt] at hd; omega
    · exact hge
  have hsubdiv : (a - 2 ^ i) / 2 ^ i = a / 2 ^ i - 1 := by
    have hdm : 2 ^ i * (a / 2 ^ i) + a % 2 ^ i = a := Nat.div_add_mod _ _
    obtain ⟨d, hdd⟩ : ∃ d, a / 2 ^ i = d + 1 := by
      refine ⟨a / 2 ^ i - 1, ?_⟩
      generalize ht : a / 2 ^ i = t at hd ⊢
      omega
    rw [hdd] at hdm
    have hmul : 2 ^ i * (d + 1) = 2 ^ i * d + 2 ^ i := by ring
    have heq : a - 2 ^ i = 2 ^ i * d + a % 2 ^ i := by omega
    rw [heq, Nat.mul_add_div hpos, Nat.div_eq_of_lt (Nat.mod_lt _ hpos), Nat.add_zero, hdd]
    omega
  have hb : (a - 2 ^ i).testBit i = false := by
    rw [Nat.testBit_to_div_mod, hsubdiv]
    simp only [decide_eq_false_iff_not]
    omega
  have hkey := testBit_add_two_pow (a - 2 ^ i) i hb j
  rw [Nat.sub_add_cancel hle] at hkey
  by_cases hji : j = i
  · subst hji
    rw [hb]
    simp
  · have hne : decide (j = i) = false := by simp [hji]
    rw [hne, Bool.or_false] at hkey
    rw [← hkey]
    have hne2 : decide (j ≠ i) = true := by simp [hji]
    rw [hne2, Bool.and_true]

theorem lor_two_pow_of_testBit_false (a i : Nat) (h : a.testBit i = false) :
    a ||| 2 ^ i = a + 2 ^ i := by
  apply Nat.eq_of_testBit_eq
  intro j
  rw [Nat.testBit_lor, testBit_add_two_pow a i h j]
  by_cases hji : j = i
  · subst hji; simp
  · have h1 : (2 ^ i).testBit j = false := by
      rcases Nat.lt_or_ge j i with hlt | hge
      · rw [Nat.testBit_to_div_mod]
        have hij : i - j - 1 + 1 + j = i := by omega
        have h2 : (2 : Nat) ^ i = 2 * 2 ^ (i - j - 1) * 2 ^ j := by
          calc (2 : Nat) ^ i = 2 ^ (i - j - 1 + 1 + j) := by rw [hij]
            _ = 2 ^ (i - j - 1 + 1) * 2 ^ j := by rw [Nat.pow_add]
            _ = 2 ^ (i - j - 1) * 2 * 2 ^ j := by rw [Nat.pow_succ]
            _ = 2 * 2 ^ (i - j - 1) * 2 ^ j := by ring
        rw [h2, Nat.mul_div_cancel _ (Nat.two_pow_pos j)]
        simp only [decide_eq_false_iff_not]
        omega
      · have hgt : i < j := by omega
        exact Nat.testBit_lt_two_pow (Nat.pow_lt_pow_right (by omega) hgt)
    rw [h1]
    simp [hji]

theorem testBit_u64Not (x j : Nat) :
    (u64Not x).testBit j = Bool.xor (decide (j < 64)) (x.testBit j) := by
  unfold u64Not U64_LIMIT
  rw [Nat.testBit_xor, Nat.testBit_two_pow_sub_one]

theorem testBit_bit_mask (n j : Nat) : (bit_mask n).testBit j = decide (j < n) := by
  unfold bit_mask
  rw [Nat.one_shiftLeft, Nat.testBit_two_pow_sub_one]

theorem PageBitmap.get_set (bm i : Nat) (v : Bool) (j : Nat) :
    PageBitmap.get (PageBitmap.set bm i v) j =
      if j = i then v else PageBitmap.get bm j := by
  cases v with
  | true =>
    show (bm ||| 1 <<< i).testBit j = _
    rw [Nat.one_shiftLeft, Nat.testBit_lor]
    by_cases hji : j = i
    · subst hji
      rw [Nat.testBit_two_pow_self]
      simp
    · rw [Nat.testBit_two_pow_of_ne (fun hc => hji hc.symm)]
      simp [hji, PageBitmap.get]
  | false =>
    show (if bm.testBit i then bm - 1 <<< i else bm).testBit j = _
    rw [Nat.one_shiftLeft]
    by_cases hbit : bm.testBit i
    · rw [if_pos hbit, testBit_sub_two_pow bm i hbit j]
      by_cases hji : j = i
      · subst hji; simp
      · simp [hji, PageBitmap.get]
    · rw [if_neg hbit]
      by_cases hji : j = i
      · subst hji
        simp only [if_pos rfl]
        exact Bool.not_eq_true _ ▸ (by simpa using hbit)
      · simp [hji, PageBitmap.get]

theorem PageBitmap.set_true_then_false (bm i : Nat) (h : PageBitmap.get bm i = false) :
    PageBitmap.set (PageBitmap.set bm i true) i false = bm := by
  have h0 : bm.testBit i = false := h
  have h1 : PageBitmap.set bm i true = bm + 2 ^ i := by
    show bm ||| 1 <<< i = bm + 2 ^ i
    rw [Nat.one_shiftLeft]
    exact lor_two_pow_of_testBit_false bm i h0
  have h2 : (bm + 2 ^ i).testBit i = true := by
    rw [testBit_add_two_pow bm i h0 i]; simp
  rw [h1]
  show (if (bm + 2 ^ i).testBit i then bm + 2 ^ i - 1 <<< i else bm + 2 ^ i) = bm
  rw [if_pos h2, Nat.one_shiftLeft, Nat.add_sub_cancel]

theorem PageBitmap.set_false_idem (bm i : Nat) :
    PageBitmap.set (PageBitmap.set bm i false) i false = PageBitmap.set bm i false := by
  by_cases hbit : bm.testBit i
  · have h1 : PageBitmap.set bm i false = bm - 2 ^ i := by
      show (if bm.testBit i then bm - 1 <<< i else bm) = bm - 2 ^ i
      rw [if_pos hbit, Nat.one_shiftLeft]
    have h2 : (bm - 2 ^ i).testBit i = false := by
      rw [testBit_sub_two_pow bm i hbit i]; simp
    rw [h1]
    show (if (bm - 2 ^ i).testBit i then bm - 2 ^ i - 1 <<< i else bm - 2 ^ i) = bm - 2 ^ i
    rw [if_neg (by simp [h2])]
  · have h1 : PageBitmap.set bm i false = bm := by
      show (if bm.testBit i then bm - 1 <<< i else bm) = bm
      rw [if_neg hbit]
    simp only [h1]

theorem intShift1_low (n : Nat) (h : n < 31) : intShift1 n = some (1 <<< n) := by
  unfold intShift1
  rw [if_pos h]

theorem intShift1_31 : intShift1 31 = some (U64_LIMIT - (1 <<< 31)) := by
  unfold intShift1
  rw [if_neg (by omega), if_pos rfl]

theorem intShift1_high (n : Nat) (h : 32 ≤ n) : intShift1 n = none := by
  unfold intShift1
  rw [if_neg (by omega), if_neg (by omega)]

theorem one_shiftLeft_split (i : Nat) :
    ((1 : Nat) <<< (i % 64)) <<< (64 * (i / 64)) = 1 <<< i := by
  rw [Nat.shiftLeft_eq, Nat.shiftLeft_eq, Nat.shiftLeft_eq, Nat.one_mul, Nat.one_mul,
    ← Nat.pow_add]
  rw [Nat.mod_add_div]

theorem getCpp_low (bm i : Nat) (h : i % 64 < 31) :
    PageBitmap.getCpp bm i = some (PageBitmap.get bm i) := by
  unfold PageBitmap.getCpp
  rw [intShift1_low _ h]
  dsimp only
  congr 1
  rw [Nat.one_shiftLeft, Nat.and_two_pow]
  have ht : ((bm >>> (64 * (i / 64))) % U64_LIMIT).testBit (i % 64) = bm.testBit i := by
    unfold U64_LIMIT
    rw [Nat.testBit_mod_two_pow, Nat.testBit_shiftRight, Nat.div_add_mod]
    simp [show i % 64 < 64 from Nat.mod_lt _ (by omega)]
  rw [ht]
  cases hb : bm.testBit i with
  | false => simp [PageBitmap.get, hb]
  | true => simp [PageBitmap.get, hb, (Nat.two_pow_pos (i % 64)).ne']

theorem setCpp_true_low (bm i : Nat) (h : i % 64 < 31) :
    PageBitmap.setCpp bm i true = some (PageBitmap.set bm i true) := by
  unfold PageBitmap.setCpp
  rw [intShift1_low _ h]
  dsimp only
  rw [one_shiftLeft_split]
  rfl

theorem setCpp_false_low (bm i : Nat) (h : i % 64 < 31) :
    PageBitmap.setCpp bm i false = some (PageBitmap.set bm i false) := by
  unfold PageBitmap.setCpp
  rw [intShift1_low _ h]
  dsimp only
  rw [one_shiftLeft_split]
  congr 1
  show bm - (bm &&& 1 <<< i) = PageBitmap.set bm i false
  rw [Nat.one_shiftLeft, Nat.and_two_pow]
  cases hb : bm.testBit i with
  | false =>
    show bm - false.toNat * 2 ^ i = (if bm.testBit i then bm - 1 <<< i else bm)
    rw [if_neg (by simp [hb])]
    simp
  | true =>
    show bm - true.toNat * 2 ^ i = (if bm.testBit i then bm - 1 <<< i else bm)
    rw [if_pos (by simp [hb]), Nat.one_shiftLeft]
    simp

theorem setCpp_false_31 (bm i : Nat) (h : i % 64 = 31) :
    PageBitmap.setCpp bm i false =
      some (bm - (bm &&& (U64_LIMIT - (1 <<< 31)) <<< (64 * (i / 64)))) := by
  unfold PageBitmap.setCpp
  rw [h, intShift1_31]
  rfl

theorem setCpp_high (bm i : Nat) (v : Bool) (h : 32 ≤ i % 64) :
    PageBitmap.setCpp bm i v = none := by
  unfold PageBitmap.setCpp
  rw [intShift1_high _ h]

theorem PageTableEntry.get_bit_set_bit (e : PageTableEntry) (idx : Nat) (v : Bool)
    (hidx : idx < 31) : (e.set_bit idx v).get_bit idx = some v := by
  cases v with
  | true =>
    show ((⟨e.m_value ||| 1 <<< idx⟩ : PageTableEntry).get_bit idx) = some true
    unfold PageTableEntry.get_bit
    rw [intShift1_low idx hidx]
    dsimp only
    congr 1
    rw [Nat.one_shiftLeft, Nat.and_two_pow]
    have h1 : (e.m_value ||| 2 ^ idx).testBit idx = true := by
      rw [Nat.testBit_lor, Nat.testBit_two_pow_self]
      simp
    rw [h1]
    have h2 : (2 : Nat) ^ idx ≠ 0 := (Nat.two_pow_pos idx).ne'
    simp only [Bool.toNat_true, Nat.one_mul]
    exact bne_iff_ne.mpr h2
  | false =>
    show ((⟨e.m_value &&& u64Not (1 <<< idx)⟩ : PageTableEntry).get_bit idx) = some false
    unfold PageTableEntry.get_bit
    rw [intShift1_low idx hidx]
    dsimp only
    congr 1
    rw [Nat.one_shiftLeft, Nat.and_two_pow]
    have h1 : (e.m_value &&& u64Not (2 ^ idx)).testBit idx = false := by
      rw [Nat.testBit_land, testBit_u64Not, Nat.testBit_two_pow_self]
      simp [show idx < 64 from by omega]
    rw [h1]
    simp

/-- C6 counterexample: the claim says the ExecutionDisabled round trip
returns the stored boolean, but the getter `is_execution_disabled` executes
`m_value & (1 << 63)` with an `int` left operand: a shift by 63 on a 32-bit
`int` is undefined behaviour, so after `set_execution_disabled(true)` the
getter does not return `true` (the read is undefined, modelled `none`). -/
theorem C6_counterexample :
    ¬((PageTableEntry.set_execution_disabled ⟨0⟩ true).is_execution_disabled =
      some true) := by decide

/-- C6 (amended): for the four flags Present (bit 0), Writable (bit 1),
User (bit 2) and PageSize (bit 7), setting the flag to any boolean `v` on
any starting entry makes the corresponding getter return exactly `v`,
independently of all the other bits of the entry.  For ExecutionDisabled
(bit 63) the setter stores the bit, but the getter's mask `1 << 63` shifts
a 32-bit `int` by 63, which is undefined behaviour: the round trip never
returns a defined value. -/
theorem C6_theorem (e : PageTableEntry) (v : Bool) :
    (e.set_present v).is_present = some v ∧
    (e.set_writable v).is_writable = some v ∧
    (e.set_user v).is_user = some v ∧
    (e.set_ps v).is_ps = some v ∧
    (e.set_execution_disabled v).is_execution_disabled = none :=
  ⟨PageTableEntry.get_bit_set_bit e 0 v (by omega),
   PageTableEntry.get_bit_set_bit e 1 v (by omega),
   PageTableEntry.get_bit_set_bit e 2 v (by omega),
   PageTableEntry.get_bit_set_bit e 7 v (by omega),
   rfl⟩

theorem testBit_30 (j : Nat) : (30 : Nat).testBit j = (decide (1 ≤ j) && decide (j < 5)) := by
  have h30 : (30 : Nat) = (2 ^ 4 - 1) <<< 1 := by
    rw [Nat.shiftLeft_eq]; norm_num
  rw [h30, Nat.testBit_shiftLeft, Nat.testBit_two_pow_sub_one]
  by_cases h1 : 1 ≤ j
  · have hd : decide (j - 1 < 4) = decide (j < 5) := by
      rw [decide_eq_decide]; omega
    simp [h1, hd]
  · simp [h1]

theorem testBit_65504 (j : Nat) :
    (65504 : Nat).testBit j = (decide (5 ≤ j) && decide (j < 16)) := by
  have h65504 : (65504 : Nat) = (2 ^ 11 - 1) <<< 5 := by
    rw [Nat.shiftLeft_eq]; norm_num
  rw [h65504, Nat.testBit_shiftLeft, Nat.testBit_two_pow_sub_one]
  by_cases h1 : 5 ≤ j
  · have hd : decide (j - 5 < 11) = decide (j < 16) := by
      rw [decide_eq_decide]; omega
    simp [h1, hd]
  · simp [h1]

theorem two_mul_div_two_testBit (v j : Nat) :
    (2 * (v / 2)).testBit j = (v.testBit j && decide (j ≠ 0)) := by
  match j with
  | 0 =>
    rw [Nat.testBit_to_div_mod, Nat.testBit_to_div_mod]
    simp only [Nat.pow_zero, Nat.div_one]
    have h1 : decide (2 * (v / 2) % 2 = 1) = false := by
      simp only [decide_eq_false_iff_not]; omega
    rw [h1]
    simp
  | k + 1 =>
    rw [Nat.testBit_to_div_mod, Nat.testBit_to_div_mod]
    have h1 : 2 * (v / 2) / 2 ^ (k + 1) = v / 2 ^ (k + 1) := by
      have h2 : (2 : Nat) ^ (k + 1) = 2 * 2 ^ k := by
        rw [Nat.pow_succ]; exact Nat.mul_comm _ _
      rw [h2, Nat.mul_div_mul_left _ _ (by omega : (0 : Nat) < 2), Nat.div_div_eq_div_mul]
    rw [h1]
    simp

theorem testBit_one_shiftLeft_sub_one (n j : Nat) :
    ((1 <<< n) - 1 : Nat).testBit j = decide (j < n) := by
  rw [Nat.one_shiftLeft, Nat.testBit_two_pow_sub_one]

/-- C3 counterexample: the claim says the round trip returns exactly `v` for
every 14-bit `v`, but at `v = 1` (a 14-bit value) on a cleared entry
`set_available(1)` followed by `get_available()` returns `0`, because the
lowest bit of the available value is deliberately not stored (dirty-bit
position). -/
theorem C3_counterexample :
    ¬((PageTableEntry.set_available ⟨0⟩ 1).get_available = 1) := by decide

/-- C3 (amended): for every 14-bit value `v` and every starting entry,
`set_available v` followed by `get_available` returns `v` with its lowest
bit cleared, i.e. `2 * (v / 2)`; the value round-trips exactly when `v` is
even.  The payload is packed across bits 8 to 11 and 52 to 62 of the entry,
and the bit that would complete the 16-bit field (the dirty-bit position)
is dropped. -/
theorem C3_theorem (e : PageTableEntry) (v : Nat) (hv : v < 2 ^ 14) :
    (e.set_available v).get_available = 2 * (v / 2) := by
  have hv16 : v % 2 ^ 16 = v := Nat.mod_eq_of_lt (by omega)
  apply Nat.eq_of_testBit_eq
  intro j
  rw [two_mul_div_two_testBit]
  simp only [PageTableEntry.get_available, PageTableEntry.set_available, hv16,
    Nat.testBit_lor, Nat.testBit_land, Nat.testBit_shiftRight, Nat.testBit_shiftLeft,
    testBit_u64Not, testBit_bit_mask, testBit_30, testBit_65504]
  rcases Nat.lt_or_ge j 16 with h16 | h16
  · interval_cases j <;> simp
  · have hvb : v.testBit j = false :=
      Nat.testBit_lt_two_pow (lt_of_lt_of_le hv (Nat.pow_le_pow_right (by omega) (by omega)))
    simp [show ¬(j < 16) by omega, show ¬(j < 5) by omega, hvb]

/-- C3 witness: at `v = 6` on an entry full of junk bits the round trip
returns `6` unchanged (6 is even), as the amended theorem states. -/
theorem C3_witness :
    (6 : Nat) < 2 ^ 14 ∧
    (PageTableEntry.set_available ⟨81985529216486895⟩ 6).get_available = 2 * (6 / 2) :=
  ⟨by decide, C3_theorem ⟨81985529216486895⟩ 6 (by decide)⟩

/-- C4 counterexample: the claim says only bits above bit 51 are discarded,
so the physical address `2 ^ 48` (which fits in 52 bits and is 4 KiB
aligned) should be stored unchanged; in fact `set_addr` masks the incoming
address with `bit_mask(48)` and `addr()` returns `0`. -/
theorem C4_counterexample :
    ¬((PageTableEntry.set_addr ⟨0⟩ (2 ^ 48)).addr =
      2 ^ 48 % 2 ^ 52 / PAGE_SIZE * PAGE_SIZE) := by decide

/-- C4 (amended): after `set_addr(p)`, `addr()` returns `p` rounded down to
the nearest 4 KiB boundary with the bits of `p` at and above bit 48 (not 52)
silently discarded, and with the entry's pre-existing bits 48 to 51
untouched (set_addr only clears bits 12 to 47, while addr() reads bits 12 to
51); no failure is possible.  Stated as: the low 48 bits of the result are
`p mod 2^48` rounded down to 4 KiB, and bits 48 to 51 of the result are the
entry's old bits 48 to 51. -/
theorem C4_theorem (e : PageTableEntry) (p : Nat) :
    (e.set_addr p).addr % 2 ^ 48 = p % 2 ^ 48 / PAGE_SIZE * PAGE_SIZE ∧
    (e.set_addr p).addr / 2 ^ 48 = e.m_value / 2 ^ 48 % 16 := by
  constructor
  · have hr : p % 2 ^ 48 / PAGE_SIZE * PAGE_SIZE = ((p % 2 ^ 48) >>> 12) <<< 12 := by
      rw [Nat.shiftRight_eq_div_pow, Nat.shiftLeft_eq]
      norm_num [PAGE_SIZE]
    rw [hr]
    apply Nat.eq_of_testBit_eq
    intro j
    simp only [PageTableEntry.addr, PageTableEntry.set_addr, Nat.testBit_mod_two_pow,
      Nat.testBit_lor, Nat.testBit_land, Nat.testBit_shiftLeft, Nat.testBit_shiftRight,
      testBit_u64Not, testBit_bit_mask, testBit_one_shiftLeft_sub_one]
    rcases Nat.lt_or_ge j 12 with h12 | h12
    · simp [show ¬(12 ≤ j) from by omega, show j < 64 from by omega,
        show j < 12 from by omega]
    · rcases Nat.lt_or_ge j 48 with h48 | h48
      · rw [show 12 + (j - 12) = j from by omega]
        simp [show 12 ≤ j from h12, show ¬(j < 12) from by omega,
          show j < 64 from by omega, show j < 48 from h48, show j < 52 from by omega,
          show j - 12 < 36 from by omega]
      · rw [show 12 + (j - 12) = j from by omega]
        simp [show ¬(j < 48) from by omega]
  · have h16 : (16 : Nat) = 2 ^ 4 := by norm_num
    rw [h16, ← Nat.shiftRight_eq_div_pow, ← Nat.shiftRight_eq_div_pow]
    apply Nat.eq_of_testBit_eq
    intro j
    simp only [PageTableEntry.addr, PageTableEntry.set_addr, Nat.testBit_mod_two_pow,
      Nat.testBit_lor, Nat.testBit_land, Nat.testBit_shiftLeft, Nat.testBit_shiftRight,
      testBit_u64Not, testBit_bit_mask, testBit_one_shiftLeft_sub_one]
    rcases Nat.lt_or_ge j 4 with h4 | h4
    · simp [show j < 4 from h4, show 48 + j < 52 from by omega,
        show 12 ≤ 48 + j from by omega, show 48 + j < 64 from by omega,
        show ¬(48 + j - 12 < 36) from by omega, show ¬(48 + j < 48) from by omega]
    · simp [show ¬(j < 4) from by omega, show ¬(48 + j < 52) from by omega]

/-- Well-formedness of the firmware memory map, as assumed by the amended
allocator claims: usable entries appear in ascending, non-overlapping order
starting at or above `lb`, each with a 4 KiB aligned physical base and lying
entirely below `2 ^ 64`.  These are the guarantees the boot protocol gives
for the usable entries of the memory map; taking `lb = 1` additionally rules
out a usable page at physical address `0`, the address `allocate_page` uses
as its not-found sentinel. -/
def regionsOkB (lb : Nat) : List MemMapEntry → Bool
  | [] => true
  | e :: rest =>
    if e.type = usableType then
      decide (lb ≤ e.base) && decide (e.base % PAGE_SIZE = 0) &&
        decide (e.base + e.length < U64_LIMIT) && regionsOkB (e.base + e.length) rest
    else regionsOkB lb rest

theorem scanRegion_all_set (bm : Nat) (n : Nat) :
    ∀ pi addr, (∀ k, k < n → PageBitmap.get bm (pi + k) = true) →
      scanRegion bm pi addr n = (pi + n, 0) := by
  induction n with
  | zero => intro pi addr _; simp [scanRegion]
  | succ m ih =>
    intro pi addr h
    have h0 : PageBitmap.get bm pi = true := by
      have := h 0 (by omega)
      simpa using this
    have hrec := ih (pi + 1) ((addr + PAGE_SIZE) % U64_LIMIT) (fun k hk => by
      have hx := h (k + 1) (by omega)
      rw [show pi + 1 + k = pi + (k + 1) from by omega]
      exact hx)
    show scanRegion bm pi addr (Nat.succ m) = (pi + Nat.succ m, 0)
    simp only [scanRegion, h0, if_true]
    rw [hrec]
    congr 1
    omega

theorem scanRegion_char (bm : Nat) (n : Nat) :
    ∀ pi addr, addr < U64_LIMIT →
      (scanRegion bm pi addr n = (pi + n, 0) ∧
        ∀ k, k < n → PageBitmap.get bm (pi + k) = true) ∨
      (∃ k, k < n ∧ PageBitmap.get bm (pi + k) = false ∧
        scanRegion bm pi addr n = (pi + k, (addr + k * PAGE_SIZE) % U64_LIMIT)) := by
  induction n with
  | zero =>
    intro pi addr _
    left
    constructor
    · simp [scanRegion]
    · intro k hk
      exact absurd hk (by omega)
  | succ m ih =>
    intro pi addr haddr
    by_cases h0 : PageBitmap.get bm pi = true
    · rcases ih (pi + 1) ((addr + PAGE_SIZE) % U64_LIMIT)
        (Nat.mod_lt _ (by norm_num [U64_LIMIT])) with ⟨heq, hall⟩ | ⟨k, hk, hf, heq⟩
      · left
        constructor
        · show scanRegion bm pi addr (Nat.succ m) = (pi + Nat.succ m, 0)
          simp only [scanRegion, h0, if_true]
          rw [heq]
          congr 1
          omega
        · intro k hk
          match k with
          | 0 => simpa using h0
          | j + 1 =>
            have hx := hall j (by omega)
            rw [show pi + (j + 1) = pi + 1 + j from by omega]
            exact hx
      · right
        refine ⟨k + 1, by omega, ?_, ?_⟩
        · have hx := hf
          rw [show pi + (k + 1) = pi + 1 + k from by omega]
          exact hx
        · show scanRegion bm pi addr (Nat.succ m) = _
          simp only [scanRegion, h0, if_true]
          rw [heq, Nat.mod_add_mod]
          have e1 : pi + 1 + k = pi + (k + 1) := by omega
          have e2 : addr + PAGE_SIZE + k * PAGE_SIZE = addr + (k + 1) * PAGE_SIZE := by ring
          rw [e1, e2]
    · have h0f : PageBitmap.get bm pi = false := by
        simpa using h0
      right
      refine ⟨0, by omega, by simpa using h0f, ?_⟩
      show scanRegion bm pi addr (Nat.succ m) = _
      simp only [scanRegion, h0f, Bool.false_eq_true, if_false]
      simp [Nat.mod_eq_of_lt haddr]

theorem allocScan_inv (bm : Nat) :
    ∀ mm lb pi pi2 pa, regionsOkB lb mm = true → 1 ≤ lb →
      allocScan bm mm pi = (pi2, pa) → pa ≠ 0 →
      lb ≤ pa ∧ pa < U64_LIMIT ∧ pa % PAGE_SIZE = 0 ∧
        PageBitmap.get bm pi2 = false ∧ findRegion mm pa pi = some pi2 := by
  intro mm
  induction mm with
  | nil =>
    intro lb pi pi2 pa _ _ hscan hpa
    simp only [allocScan, Prod.mk.injEq] at hscan
    exact absurd hscan.2.symm hpa
  | cons e rest ih =>
    intro lb pi pi2 pa hok hlb hscan hpa
    have hP : PAGE_SIZE = 4096 := rfl
    have hU : U64_LIMIT = 18446744073709551616 := by norm_num [U64_LIMIT]
    by_cases ht : e.type = usableType
    · simp only [regionsOkB, ht, if_pos] at hok
      rw [Bool.and_eq_true, Bool.and_eq_true, Bool.and_eq_true] at hok
      obtain ⟨⟨⟨h1, h2⟩, h3⟩, h4⟩ := hok
      rw [decide_eq_true_eq] at h1 h2 h3
      simp only [allocScan, ht, if_pos] at hscan
      have hblt : e.base < U64_LIMIT := by omega
      have hb : e.base % U64_LIMIT = e.base := Nat.mod_eq_of_lt hblt
      rw [hb] at hscan
      rcases scanRegion_char bm (e.length / PAGE_SIZE) pi e.base hblt with
        ⟨heq, hall⟩ | ⟨k, hk, hf, heq⟩
      · rw [heq] at hscan
        simp only [if_pos rfl] at hscan
        have hfacts := ih (e.base + e.length) (pi + e.length / PAGE_SIZE) pi2 pa h4
          (by omega) hscan hpa
        refine ⟨by omega, hfacts.2.1, hfacts.2.2.1, hfacts.2.2.2.1, ?_⟩
        simp only [findRegion, ht, if_pos]
        rw [if_neg]
        · exact hfacts.2.2.2.2
        · rw [Nat.mod_eq_of_lt h3]
          have hge := hfacts.1
          omega
      · have hklen : k * PAGE_SIZE + PAGE_SIZE ≤ e.length := by
          rw [hP]
          rw [hP] at hk
          omega
        have hpa0 : (e.base + k * PAGE_SIZE) % U64_LIMIT = e.base + k * PAGE_SIZE := by
          apply Nat.mod_eq_of_lt
          omega
        rw [hpa0] at heq
        rw [heq] at hscan
        rw [if_neg (by omega : ¬(e.base + k * PAGE_SIZE = 0))] at hscan
        rw [Prod.mk.injEq] at hscan
        obtain ⟨hpi2, hpaeq⟩ := hscan
        subst hpi2
        subst hpaeq
        refine ⟨by omega, by omega, ?_, hf, ?_⟩
        · rw [hP]
          rw [hP] at h2
          omega
        · simp only [findRegion, ht, if_pos]
          rw [if_pos ⟨by omega, by rw [Nat.mod_eq_of_lt h3]; omega⟩]
          congr 1
          rw [hP]
          rw [hP] at h2
          omega
    · simp only [regionsOkB, ht, if_neg] at hok
      simp only [allocScan, ht, if_neg] at hscan
      have hfacts := ih lb pi pi2 pa hok hlb hscan hpa
      refine ⟨hfacts.1, hfacts.2.1, hfacts.2.2.1, hfacts.2.2.2.1, ?_⟩
      simp only [findRegion, ht, if_neg]
      exact hfacts.2.2.2.2

/-- Memory map with a usable region at physical address 0 followed by a
second usable region, used to exhibit the zero-sentinel behaviour of
`allocate_page`. -/
def mmZero : List MemMapEntry := [⟨0, 8192, usableType⟩, ⟨0x8000, 4096, usableType⟩]

/-- Memory map with a single usable region of exactly 64 pages. -/
def mm64 : List MemMapEntry := [⟨65536, 64 * PAGE_SIZE, usableType⟩]

/-- C7 counterexample: an initialized allocator state reached by
`init`, two `allocate_page` calls and one `free_page` call on a memory map
whose first usable region starts at physical address 0.  In the state with
bitmap `2` (frame 0 free, frame 1 used, frame 2 free), `allocate_page`
returns the HHDM pointer of the frame at `0x8000` but marks bit 0, and
`free_page` of that pointer clears bit 2 (already clear); the final bitmap
is `3`, not the prior `2`, so the free-frame count is not restored. -/
theorem C7_counterexample :
    kernel.alloc.init mmZero (2 ^ 40) = some ⟨mmZero, 2 ^ 40, 0⟩ ∧
    kernel.alloc.allocate_page ⟨mmZero, 2 ^ 40, 0⟩ =
      some (2 ^ 40 + 0x8000, ⟨mmZero, 2 ^ 40, 1⟩) ∧
    kernel.alloc.allocate_page ⟨mmZero, 2 ^ 40, 1⟩ =
      some (2 ^ 40 + 4096, ⟨mmZero, 2 ^ 40, 3⟩) ∧
    kernel.alloc.free_page ⟨mmZero, 2 ^ 40, 3⟩ (2 ^ 40) = some ⟨mmZero, 2 ^ 40, 2⟩ ∧
    kernel.alloc.allocate_page ⟨mmZero, 2 ^ 40, 2⟩ =
      some (2 ^ 40 + 0x8000, ⟨mmZero, 2 ^ 40, 3⟩) ∧
    kernel.alloc.free_page ⟨mmZero, 2 ^ 40, 3⟩ (2 ^ 40 + 0x8000) =
      some ⟨mmZero, 2 ^ 40, 3⟩ ∧
    (⟨mmZero, 2 ^ 40, 3⟩ : AllocState) ≠ ⟨mmZero, 2 ^ 40, 2⟩ := by decide

/-- C7 (amended): in an initialized allocator state whose memory map has
well-formed usable regions (ascending, disjoint, 4 KiB aligned bases, all
below 2^64, and none starting at physical address 0, which is the
not-found sentinel of the scan) and whose HHDM offset is page aligned,
`free_page` applied to the pointer just returned by a successful
`allocate_page` restores exactly the prior state: the same bitmap bit that
was set is cleared, so the free-frame count is back to its prior value and
a subsequent `allocate_page` returns that same frame again. -/
theorem C7_theorem (s : AllocState) (v : Nat) (s2 : AllocState)
    (hok : regionsOkB 1 s.memmap = true)
    (hh : s.hhdm % PAGE_SIZE = 0)
    (ha : kernel.alloc.allocate_page s = some (v, s2)) :
    kernel.alloc.free_page s2 v = some s := by
  obtain ⟨mm, hd, bm⟩ := s
  simp only at hok hh
  unfold kernel.alloc.allocate_page at ha
  rcases hsc : allocScan bm mm 0 with ⟨pi, pa⟩
  rw [hsc] at ha
  dsimp only at ha
  by_cases hpa : pa = 0
  · rw [if_pos hpa] at ha
    exact absurd ha (by simp)
  · rw [if_neg hpa] at ha
    rw [Option.some.injEq, Prod.mk.injEq] at ha
    obtain ⟨hv, hs2⟩ := ha
    obtain ⟨hge, hlt, hal, hbit, hfind⟩ := allocScan_inv bm mm 1 0 pi pa hok le_rfl hsc hpa
    subst hv
    subst hs2
    have hU : U64_LIMIT = 18446744073709551616 := by norm_num [U64_LIMIT]
    have hP : PAGE_SIZE = 4096 := rfl
    unfold kernel.alloc.free_page
    simp only
    have haddr : physical_to_virtual hd pa % U64_LIMIT = (pa + hd) % U64_LIMIT := by
      unfold physical_to_virtual
      exact Nat.mod_mod_of_dvd _ (dvd_refl _)
    have hal2 : physical_to_virtual hd pa % U64_LIMIT % PAGE_SIZE = 0 := by
      rw [haddr, Nat.mod_mod_of_dvd _ (by rw [hP, hU]; norm_num : PAGE_SIZE ∣ U64_LIMIT)]
      rw [hP]
      rw [hP] at hal hh
      omega
    rw [if_neg (fun hc => hc hal2)]
    have hvp : virtual_to_physical hd (physical_to_virtual hd pa % U64_LIMIT) = pa := by
      rw [haddr]
      unfold virtual_to_physical
      rw [hU]
      rw [hU] at hlt
      omega
    rw [hvp, hfind]
    dsimp only
    rw [PageBitmap.set_true_then_false bm pi hbit]

/-- C7 witness: on the one-region map of 64 pages, from the state `init`
produces (bitmap 1), `allocate_page` returns the HHDM pointer of frame 1
with bitmap 3, and freeing that pointer restores bitmap 1. -/
theorem C7_witness :
    kernel.alloc.free_page ⟨mm64, 2 ^ 40, 3⟩ (65536 + 4096 + 2 ^ 40) =
      some ⟨mm64, 2 ^ 40, 1⟩ :=
  C7_theorem ⟨mm64, 2 ^ 40, 1⟩ (65536 + 4096 + 2 ^ 40) ⟨mm64, 2 ^ 40, 3⟩
    (by decide) (by decide) (by decide)

theorem init_inv (mm : List MemMapEntry) (hhdm : Nat) (s : AllocState)
    (h : kernel.alloc.init mm hhdm = some s) :
    ∃ skipped base, findBitmapSpot (bitmap_array_size mm) mm 0 = some (skipped, base) ∧
      s = ⟨mm, hhdm, markBitmapFrames 0 skipped (bitmap_page_size mm)⟩ := by
  unfold kernel.alloc.init at h
  rcases hspot : findBitmapSpot (bitmap_array_size mm) mm 0 with _ | ⟨skipped, base⟩
  · rw [hspot] at h
    exact absurd h (by simp)
  · rw [hspot] at h
    dsimp only at h
    by_cases hva : physical_to_virtual hhdm base = 0
    · rw [if_pos hva] at h
      exact absurd h (by simp)
    · rw [if_neg hva] at h
      rw [Option.some.injEq] at h
      exact ⟨skipped, base, rfl, h.symm⟩

theorem scanRegionCpp_found (bm : Nat) :
    ∀ k n pi addr, k < n →
      PageBitmap.getCpp bm (pi + k) = some false →
      (∀ j, j < k → PageBitmap.getCpp bm (pi + j) = some true) →
      addr + k * PAGE_SIZE < U64_LIMIT →
      scanRegionCpp bm pi addr n = some (pi + k, addr + k * PAGE_SIZE) := by
  intro k
  induction k with
  | zero =>
    intro n pi addr hk hf _ _
    obtain ⟨n2, rfl⟩ : ∃ n2, n = n2 + 1 := ⟨n - 1, by omega⟩
    simp only [Nat.add_zero] at hf
    show scanRegionCpp bm pi addr (Nat.succ n2) = _
    simp only [scanRegionCpp, hf]
    simp
  | succ j ih =>
    intro n pi addr hk hf hprev hw
    obtain ⟨n2, rfl⟩ : ∃ n2, n = n2 + 1 := ⟨n - 1, by omega⟩
    have h0 : PageBitmap.getCpp bm pi = some true := by
      simpa using hprev 0 (by omega)
    show scanRegionCpp bm pi addr (Nat.succ n2) = _
    simp only [scanRegionCpp, h0, if_true]
    have hP : PAGE_SIZE = 4096 := rfl
    have hmod : (addr + PAGE_SIZE) % U64_LIMIT = addr + PAGE_SIZE := by
      apply Nat.mod_eq_of_lt
      rw [hP] at hw ⊢
      omega
    rw [hmod]
    have hrec := ih n2 (pi + 1) (addr + PAGE_SIZE) (by omega)
      (by rw [show pi + 1 + j = pi + (j + 1) from by omega]; exact hf)
      (fun j2 hj2 => by
        rw [show pi + 1 + j2 = pi + (j2 + 1) from by omega]
        exact hprev (j2 + 1) (by omega))
      (by rw [hP] at hw ⊢; omega)
    rw [hrec]
    rw [show pi + 1 + j = pi + (j + 1) from by omega,
      show addr + PAGE_SIZE + j * PAGE_SIZE = addr + (j + 1) * PAGE_SIZE from by ring]

theorem scanRegionCpp_undef (bm : Nat) :
    ∀ k n pi addr, k < n →
      PageBitmap.getCpp bm (pi + k) = none →
      (∀ j, j < k → PageBitmap.getCpp bm (pi + j) = some true) →
      scanRegionCpp bm pi addr n = none := by
  intro k
  induction k with
  | zero =>
    intro n pi addr hk hf _
    obtain ⟨n2, rfl⟩ : ∃ n2, n = n2 + 1 := ⟨n - 1, by omega⟩
    simp only [Nat.add_zero] at hf
    show scanRegionCpp bm pi addr (Nat.succ n2) = none
    simp only [scanRegionCpp, hf]
  | succ j ih =>
    intro n pi addr hk hf hprev
    obtain ⟨n2, rfl⟩ : ∃ n2, n = n2 + 1 := ⟨n - 1, by omega⟩
    have h0 : PageBitmap.getCpp bm pi = some true := by
      simpa using hprev 0 (by omega)
    show scanRegionCpp bm pi addr (Nat.succ n2) = none
    simp only [scanRegionCpp, h0, if_true]
    exact ih n2 (pi + 1) ((addr + PAGE_SIZE) % U64_LIMIT) (by omega)
      (by rw [show pi + 1 + j = pi + (j + 1) from by omega]; exact hf)
      (fun j2 hj2 => by
        rw [show pi + 1 + j2 = pi + (j2 + 1) from by omega]
        exact hprev (j2 + 1) (by omega))

theorem allocate_pageCpp_of_scan (mm : List MemMapEntry) (hd bm pi pa bm2 : Nat)
    (hsc : allocScanCpp bm mm 0 = some (pi, pa)) (hpa : ¬(pa = 0))
    (hset : PageBitmap.setCpp bm pi true = some bm2) :
    kernel.alloc.allocate_pageCpp ⟨mm, hd, bm⟩ =
      CppOutcome.ok (physical_to_virtual hd pa, ⟨mm, hd, bm2⟩) := by
  unfold kernel.alloc.allocate_pageCpp
  rw [hsc]
  dsimp only
  rw [if_neg hpa, hset]

theorem allocate_pageCpp_undef_of_scan (mm : List MemMapEntry) (hd bm : Nat)
    (hsc : allocScanCpp bm mm 0 = none) :
    kernel.alloc.allocate_pageCpp ⟨mm, hd, bm⟩ = CppOutcome.undef := by
  unfold kernel.alloc.allocate_pageCpp
  rw [hsc]

theorem initCpp_of_spot (mm : List MemMapEntry) (hhdm skipped base bm : Nat)
    (hspot : findBitmapSpot (bitmap_array_size mm) mm 0 = some (skipped, base))
    (hva : ¬(physical_to_virtual hhdm base = 0))
    (hmark : markBitmapFramesCpp 0 skipped (bitmap_page_size mm) = some bm) :
    kernel.alloc.initCpp mm hhdm = CppOutcome.ok ⟨mm, hhdm, bm⟩ := by
  unfold kernel.alloc.initCpp
  rw [hspot]
  dsimp only
  rw [if_neg hva, hmark]

theorem allocScanCpp_cons_found (bm : Nat) (e : MemMapEntry)
    (rest : List MemMapEntry) (pi pi2 pa : Nat) (he : e.type = usableType)
    (hsr : scanRegionCpp bm pi (e.base % U64_LIMIT) (e.length / PAGE_SIZE) =
      some (pi2, pa)) (hpa : ¬(pa = 0)) :
    allocScanCpp bm (e :: rest) pi = some (pi2, pa) := by
  simp only [allocScanCpp, he, if_pos]
  rw [hsr]
  dsimp only
  rw [if_neg hpa]

theorem allocScanCpp_cons_undef (bm : Nat) (e : MemMapEntry)
    (rest : List MemMapEntry) (pi : Nat) (he : e.type = usableType)
    (hsr : scanRegionCpp bm pi (e.base % U64_LIMIT) (e.length / PAGE_SIZE) = none) :
    allocScanCpp bm (e :: rest) pi = none := by
  simp only [allocScanCpp, he, if_pos]
  rw [hsr]

theorem getCpp_two_pow_sub_one (m j : Nat) (hj : j < 31) :
    PageBitmap.getCpp (2 ^ m - 1) j = some (decide (j < m)) := by
  rw [getCpp_low _ j (by omega)]
  congr 1
  exact Nat.testBit_two_pow_sub_one m j

theorem C1_stepCpp (base hd : Nat) (m : Nat) (hm : 1 ≤ m) (hm30 : m ≤ 30)
    (hfit : base + 64 * PAGE_SIZE ≤ U64_LIMIT) :
    kernel.alloc.allocate_pageCpp
        ⟨[⟨base, 64 * PAGE_SIZE, usableType⟩], hd, 2 ^ m - 1⟩ =
      CppOutcome.ok ((base + m * PAGE_SIZE + hd) % U64_LIMIT,
        ⟨[⟨base, 64 * PAGE_SIZE, usableType⟩], hd, 2 ^ (m + 1) - 1⟩) := by
  have hP : PAGE_SIZE = 4096 := rfl
  have hb : base % U64_LIMIT = base := Nat.mod_eq_of_lt (by rw [hP] at hfit; omega)
  have hn : 64 * PAGE_SIZE / PAGE_SIZE = 64 := by rw [hP]
  have hpa : ¬(base + m * PAGE_SIZE = 0) := by rw [hP]; omega
  have hfound := scanRegionCpp_found (2 ^ m - 1) m 64 0 base (by omega)
    (by rw [Nat.zero_add, getCpp_two_pow_sub_one m m (by omega)]; simp)
    (fun j hj => by
      rw [Nat.zero_add, getCpp_two_pow_sub_one m j (by omega)]
      simp [hj])
    (by rw [hP] at hfit ⊢; omega)
  rw [Nat.zero_add] at hfound
  have hsc : allocScanCpp (2 ^ m - 1) [⟨base, 64 * PAGE_SIZE, usableType⟩] 0 =
      some (m, base + m * PAGE_SIZE) := by
    apply allocScanCpp_cons_found _ _ _ _ _ _ rfl _ hpa
    dsimp only
    rw [hb, hn]
    exact hfound
  have hset : PageBitmap.setCpp (2 ^ m - 1) m true = some (2 ^ (m + 1) - 1) := by
    rw [setCpp_true_low _ m (by omega)]
    congr 1
    show (2 ^ m - 1) ||| 1 <<< m = _
    rw [Nat.one_shiftLeft,
      lor_two_pow_of_testBit_false _ _ (by rw [Nat.testBit_two_pow_sub_one]; simp)]
    have h2 : (2 : Nat) ^ (m + 1) = 2 * 2 ^ m := by
      rw [Nat.pow_succ]; ring
    have h3 : 0 < 2 ^ m := Nat.two_pow_pos m
    omega
  rw [allocate_pageCpp_of_scan _ hd _ m (base + m * PAGE_SIZE) _ hsc hpa hset]
  rfl

theorem C1_chainCpp (base hd : Nat) (hfit : base + 64 * PAGE_SIZE ≤ U64_LIMIT) :
    ∀ c m, 1 ≤ m → m + c ≤ 31 →
      allocNCpp ⟨[⟨base, 64 * PAGE_SIZE, usableType⟩], hd, 2 ^ m - 1⟩ c =
        CppOutcome.ok ⟨[⟨base, 64 * PAGE_SIZE, usableType⟩], hd, 2 ^ (m + c) - 1⟩ := by
  intro c
  induction c with
  | zero =>
    intro m _ _
    simp [allocNCpp]
  | succ c2 ih =>
    intro m hm hmc
    show allocNCpp _ (Nat.succ c2) = _
    simp only [allocNCpp]
    rw [C1_stepCpp base hd m hm (by omega) hfit]
    dsimp only
    rw [ih (m + 1) (by omega) (by omega)]
    rw [show m + 1 + c2 = m + (c2 + 1) from by omega]

theorem C1_step31Cpp (base hd : Nat) (hfit : base + 64 * PAGE_SIZE ≤ U64_LIMIT) :
    kernel.alloc.allocate_pageCpp
        ⟨[⟨base, 64 * PAGE_SIZE, usableType⟩], hd, 2 ^ 31 - 1⟩ =
      CppOutcome.ok ((base + 31 * PAGE_SIZE + hd) % U64_LIMIT,
        ⟨[⟨base, 64 * PAGE_SIZE, usableType⟩], hd, 2 ^ 64 - 1⟩) := by
  have hP : PAGE_SIZE = 4096 := rfl
  have hb : base % U64_LIMIT = base := Nat.mod_eq_of_lt (by rw [hP] at hfit; omega)
  have hn : 64 * PAGE_SIZE / PAGE_SIZE = 64 := by rw [hP]
  have hpa : ¬(base + 31 * PAGE_SIZE = 0) := by rw [hP]; omega
  have hfound := scanRegionCpp_found (2 ^ 31 - 1) 31 64 0 base (by omega)
    (by decide)
    (fun j hj => by
      rw [Nat.zero_add, getCpp_two_pow_sub_one 31 j (by omega)]
      simp [hj])
    (by rw [hP] at hfit ⊢; omega)
  rw [Nat.zero_add] at hfound
  have hsc : allocScanCpp (2 ^ 31 - 1) [⟨base, 64 * PAGE_SIZE, usableType⟩] 0 =
      some (31, base + 31 * PAGE_SIZE) := by
    apply allocScanCpp_cons_found _ _ _ _ _ _ rfl _ hpa
    dsimp only
    rw [hb, hn]
    exact hfound
  have hset : PageBitmap.setCpp (2 ^ 31 - 1) 31 true = some (2 ^ 64 - 1) := by decide
  rw [allocate_pageCpp_of_scan _ hd _ 31 (base + 31 * PAGE_SIZE) _ hsc hpa hset]
  rfl

theorem C1_undefCpp (base hd : Nat) :
    kernel.alloc.allocate_pageCpp
        ⟨[⟨base, 64 * PAGE_SIZE, usableType⟩], hd, 2 ^ 64 - 1⟩ =
      CppOutcome.undef := by
  have hn : 64 * PAGE_SIZE / PAGE_SIZE = 64 := by rw [show PAGE_SIZE = 4096 from rfl]
  have hscan := scanRegionCpp_undef (2 ^ 64 - 1) 32 64 0 (base % U64_LIMIT) (by omega)
    (by decide)
    (fun j hj => by
      rcases Nat.lt_or_ge j 31 with hj31 | hj31
      · rw [Nat.zero_add, getCpp_two_pow_sub_one 64 j hj31]
        simp [show j < 64 from by omega]
      · have hj' : j = 31 := by omega
        subst hj'
        rw [Nat.zero_add]
        decide)
  have hsc : allocScanCpp (2 ^ 64 - 1) [⟨base, 64 * PAGE_SIZE, usableType⟩] 0 =
      none := by
    apply allocScanCpp_cons_undef _ _ _ _ rfl
    dsimp only
    rw [hn]
    exact hscan
  exact allocate_pageCpp_undef_of_scan _ hd _ hsc

/-- C1 counterexample: on the concrete map with one usable region of
exactly 64 pages, `init` succeeds under the exact C++20 semantics (the
bitmap takes frame 0, bitmap value `1`), but the claimed 64 successful
`allocate_page` calls never happen: already the 32nd call reads the bitmap
bit of frame index 32, whose mask `1 << 32` shifts a 32-bit `int` out of
range — undefined behaviour — so the run does not reach a 64th success,
let alone a fatal 65th call. -/
theorem C1_counterexample :
    kernel.alloc.initCpp mm64 (2 ^ 40) = CppOutcome.ok ⟨mm64, 2 ^ 40, 1⟩ ∧
    allocNCpp ⟨mm64, 2 ^ 40, 1⟩ 32 = CppOutcome.undef := by decide

/-- C1 (amended): for a memory map with exactly one usable region of
exactly 64 pages (fitting below 2^64, with an HHDM mapping that does not
place the region at virtual address 0), after `init` completes (one frame
is consumed by the bitmap itself, so the bitmap word is `1`), the exact
C++20 semantics of the `int`-typed mask `1 << bit_index` takes over: the
first 30 `allocate_page` calls behave ideally (bit positions 1 to 30),
the 31st call returns the frame at offset `31 * PAGE_SIZE` but its bitmap
write or-s in the sign-extended mask `2^64 - 2^31`, marking frames 31 to
63 allocated at one stroke (bitmap `2^64 - 1`), and the 32nd call reads
bit position 32, an out-of-range `int` shift — undefined behaviour —
instead of the claimed 64 successes followed by a fatal 65th call. -/
theorem C1_theorem (base hhdm : Nat)
    (hfit : base + 64 * PAGE_SIZE ≤ U64_LIMIT)
    (hva : physical_to_virtual hhdm base ≠ 0) :
    kernel.alloc.initCpp [⟨base, 64 * PAGE_SIZE, usableType⟩] hhdm =
      CppOutcome.ok ⟨[⟨base, 64 * PAGE_SIZE, usableType⟩], hhdm, 1⟩ ∧
    allocNCpp ⟨[⟨base, 64 * PAGE_SIZE, usableType⟩], hhdm, 1⟩ 30 =
      CppOutcome.ok ⟨[⟨base, 64 * PAGE_SIZE, usableType⟩], hhdm, 2 ^ 31 - 1⟩ ∧
    kernel.alloc.allocate_pageCpp
        ⟨[⟨base, 64 * PAGE_SIZE, usableType⟩], hhdm, 2 ^ 31 - 1⟩ =
      CppOutcome.ok ((base + 31 * PAGE_SIZE + hhdm) % U64_LIMIT,
        ⟨[⟨base, 64 * PAGE_SIZE, usableType⟩], hhdm, 2 ^ 64 - 1⟩) ∧
    kernel.alloc.allocate_pageCpp
        ⟨[⟨base, 64 * PAGE_SIZE, usableType⟩], hhdm, 2 ^ 64 - 1⟩ =
      CppOutcome.undef := by
  have hsz : bitmap_array_size [⟨base, 64 * PAGE_SIZE, usableType⟩] = 8 := by
    simp [bitmap_array_size, pagesCount, usable_memory, PAGE_SIZE]
  have hbps : bitmap_page_size [⟨base, 64 * PAGE_SIZE, usableType⟩] = 1 := by
    unfold bitmap_page_size div_ceil
    rw [hsz, show PAGE_SIZE = 4096 from rfl]
  have hspot : findBitmapSpot (bitmap_array_size [⟨base, 64 * PAGE_SIZE, usableType⟩])
      [⟨base, 64 * PAGE_SIZE, usableType⟩] 0 = some (0, base) := by
    rw [hsz]
    simp [findBitmapSpot, PAGE_SIZE]
  refine ⟨?_, ?_, ?_, ?_⟩
  · apply initCpp_of_spot _ hhdm 0 base 1 hspot hva
    rw [hbps]
    decide
  · have hch := C1_chainCpp base hhdm hfit 30 1 (by omega) (by omega)
    norm_num at hch
    exact hch
  · exact C1_step31Cpp base hhdm hfit
  · exact C1_undefCpp base hhdm

/-- C1 witness: the amended theorem applied at the concrete base `65536`
and HHDM offset `2 ^ 40`. -/
theorem C1_witness :
    kernel.alloc.initCpp mm64 (2 ^ 40) = CppOutcome.ok ⟨mm64, 2 ^ 40, 1⟩ ∧
    allocNCpp ⟨mm64, 2 ^ 40, 1⟩ 30 = CppOutcome.ok ⟨mm64, 2 ^ 40, 2 ^ 31 - 1⟩ ∧
    kernel.alloc.allocate_pageCpp ⟨mm64, 2 ^ 40, 2 ^ 31 - 1⟩ =
      CppOutcome.ok ((65536 + 31 * PAGE_SIZE + 2 ^ 40) % U64_LIMIT,
        ⟨mm64, 2 ^ 40, 2 ^ 64 - 1⟩) ∧
    kernel.alloc.allocate_pageCpp ⟨mm64, 2 ^ 40, 2 ^ 64 - 1⟩ = CppOutcome.undef :=
  C1_theorem 65536 (2 ^ 40) (by decide) (by decide)

/-- Memory map with a single usable region of 9 pages, a page count that is
not a multiple of 8. -/
def mm9 : List MemMapEntry := [⟨65536, 9 * PAGE_SIZE, usableType⟩]

/-- C5: with 9 usable pages the source computes the bitmap byte size as
`pages / 8 = 1` (integer division rounding down), while the claimed
`ceil(9 / 8)` is 2; one byte holds only 8 bits, so frame index 8 has no
corresponding bit in the allocated storage. -/
theorem C5_theorem :
    bitmap_array_size mm9 = 1 ∧ div_ceil (pagesCount mm9) 8 = 2 ∧
    8 * bitmap_array_size mm9 < pagesCount mm9 := by decide

theorem findRegion_none_iff (p : Nat) :
    ∀ mm pi, findRegion mm p pi = none ↔
      ∀ e ∈ mm, e.type = usableType →
        ¬(e.base ≤ p ∧ p < (e.base + e.length) % U64_LIMIT) := by
  intro mm
  induction mm with
  | nil =>
    intro pi
    simp [findRegion]
  | cons e rest ih =>
    intro pi
    by_cases ht : e.type = usableType
    · by_cases hc : e.base ≤ p ∧ p < (e.base + e.length) % U64_LIMIT
      · constructor
        · intro h
          exact absurd h (by simp [findRegion, ht, hc])
        · intro h
          exact absurd hc (h e (by simp) ht)
      · rw [show findRegion (e :: rest) p pi =
            findRegion rest p (pi + e.length / PAGE_SIZE) from by
          simp only [findRegion, ht, if_pos, if_neg hc]]
        rw [ih]
        constructor
        · intro h e2 hm ht2
          rcases List.mem_cons.mp hm with rfl | hm2
          · exact hc
          · exact h e2 hm2 ht2
        · intro h e2 hm ht2
          exact h e2 (List.mem_cons_of_mem _ hm) ht2
    · rw [show findRegion (e :: rest) p pi = findRegion rest p pi from by
        simp only [findRegion, ht, if_neg, if_false]]
      rw [ih]
      constructor
      · intro h e2 hm ht2
        rcases List.mem_cons.mp hm with rfl | hm2
        · exact absurd ht2 ht
        · exact h e2 hm2 ht2
      · intro h e2 hm ht2
        exact h e2 (List.mem_cons_of_mem _ hm) ht2

theorem findRegion_some_of_mem (p : Nat) (mm : List MemMapEntry) (pi : Nat)
    (hex : ∃ e ∈ mm, e.type = usableType ∧ e.base ≤ p ∧
      p < (e.base + e.length) % U64_LIMIT) :
    ∃ i, findRegion mm p pi = some i := by
  rcases h : findRegion mm p pi with _ | i
  · rw [findRegion_none_iff] at h
    obtain ⟨e, hm, ht, hc⟩ := hex
    exact absurd hc (h e hm ht)
  · exact ⟨i, rfl⟩

/-- C8 counterexample: the claim says free_page otherwise "clears a bit"
(one bit).  In the reachable state over the 64-page map whose bitmap word
is all ones (produced by `init` and 31 `allocate_page` calls, the 31st
already or-ing in the sign-extended mask), freeing the frame at index 31
executes `element &= ~(ElementType)(1 << 31)`, i.e. `element &=
0x7FFFFFFF`: bits 31 to 63 are cleared at one stroke, leaving `2^31 - 1`
instead of the single-bit clear `PageBitmap.set (2^64 - 1) 31 false`. -/
theorem C8_counterexample :
    kernel.alloc.initCpp mm64 (2 ^ 40) = CppOutcome.ok ⟨mm64, 2 ^ 40, 1⟩ ∧
    allocNCpp ⟨mm64, 2 ^ 40, 1⟩ 31 = CppOutcome.ok ⟨mm64, 2 ^ 40, 2 ^ 64 - 1⟩ ∧
    kernel.alloc.free_pageCpp ⟨mm64, 2 ^ 40, 2 ^ 64 - 1⟩
        (2 ^ 40 + 65536 + 31 * 4096) =
      CppOutcome.ok ⟨mm64, 2 ^ 40, 2 ^ 31 - 1⟩ ∧
    (2 ^ 31 - 1 : Nat) ≠ PageBitmap.set (2 ^ 64 - 1) 31 false := by decide

/-- C8 (amended): under the exact C++20 semantics, `free_page(pointer)`
halts fatally exactly when the pointer is not page aligned or its physical
address lies in no usable memory-map region (both halts occur before the
bitmap is touched; in the model the fatal outcome carries no state).  But
when it proceeds, the bit position `i % 64` of the computed frame index
`i` inside its 64-bit bitmap word decides what happens: below 31 exactly
that one bit is cleared; at 31 the `int`-promoted mask `~(1 << 31)`
sign-extends and the write clears bit positions 31 to 63 of that word at
one stroke; and from 32 on the shift `1 << bit_index` is undefined
behaviour rather than a halt. -/
theorem C8_theorem (s : AllocState) (pointer : Nat) :
    (kernel.alloc.free_pageCpp s pointer = CppOutcome.halt ↔
      pointer % U64_LIMIT % PAGE_SIZE ≠ 0 ∨
        ∀ e ∈ s.memmap, e.type = usableType →
          ¬(e.base ≤ virtual_to_physical s.hhdm (pointer % U64_LIMIT) ∧
            virtual_to_physical s.hhdm (pointer % U64_LIMIT) <
              (e.base + e.length) % U64_LIMIT)) ∧
    (∀ s2, kernel.alloc.free_pageCpp s pointer = CppOutcome.ok s2 →
      s2.memmap = s.memmap ∧ s2.hhdm = s.hhdm ∧
      ∃ i, findRegion s.memmap (virtual_to_physical s.hhdm (pointer % U64_LIMIT)) 0 =
          some i ∧ i % 64 ≤ 31 ∧
        (i % 64 < 31 → s2.bitmap = PageBitmap.set s.bitmap i false) ∧
        (i % 64 = 31 → s2.bitmap =
          s.bitmap - (s.bitmap &&& (U64_LIMIT - (1 <<< 31)) <<< (64 * (i / 64))))) ∧
    (kernel.alloc.free_pageCpp s pointer = CppOutcome.undef ↔
      pointer % U64_LIMIT % PAGE_SIZE = 0 ∧
      ∃ i, findRegion s.memmap (virtual_to_physical s.hhdm (pointer % U64_LIMIT)) 0 =
          some i ∧ 32 ≤ i % 64) := by
  obtain ⟨mm, hd, bm⟩ := s
  unfold kernel.alloc.free_pageCpp
  simp only
  by_cases hal : pointer % U64_LIMIT % PAGE_SIZE ≠ 0
  · rw [if_pos hal]
    refine ⟨?_, ?_, ?_⟩
    · simp [hal]
    · intro s2 h
      exact absurd h (by simp)
    · constructor
      · intro h
        exact absurd h (by simp)
      · rintro ⟨h0, -⟩
        exact absurd h0 hal
  · rw [if_neg hal]
    have hal0 : pointer % U64_LIMIT % PAGE_SIZE = 0 := not_not.mp hal
    rcases hfr : findRegion mm (virtual_to_physical hd (pointer % U64_LIMIT)) 0 with _ | i
    · dsimp only
      refine ⟨?_, ?_, ?_⟩
      · constructor
        · intro _
          right
          exact (findRegion_none_iff _ mm 0).mp hfr
        · intro _
          rfl
      · intro s2 h
        exact absurd h (by simp)
      · constructor
        · intro h
          exact absurd h (by simp)
        · rintro ⟨-, i, hfr2, -⟩
          exact absurd hfr2 (by simp)
    · dsimp only
      have htri : i % 64 < 31 ∨ i % 64 = 31 ∨ 32 ≤ i % 64 := by omega
      rcases htri with hlt | heq | hge
      · rw [setCpp_false_low bm i hlt]
        dsimp only
        refine ⟨?_, ?_, ?_⟩
        · constructor
          · intro h
            exact absurd h (by simp)
          · rintro (h | h)
            · exact absurd h hal
            · have hnone := (findRegion_none_iff _ mm 0).mpr h
              rw [hnone] at hfr
              exact absurd hfr (by simp)
        · intro s2 h
          rw [CppOutcome.ok.injEq] at h
          subst h
          exact ⟨rfl, rfl, i, rfl, by omega, fun _ => rfl,
            fun h31 => absurd h31 (by omega)⟩
        · constructor
          · intro h
            exact absurd h (by simp)
          · rintro ⟨-, j, hfr2, hge2⟩
            rw [Option.some.injEq] at hfr2
            subst hfr2
            omega
      · rw [setCpp_false_31 bm i heq]
        dsimp only
        refine ⟨?_, ?_, ?_⟩
        · constructor
          · intro h
            exact absurd h (by simp)
          · rintro (h | h)
            · exact absurd h hal
            · have hnone := (findRegion_none_iff _ mm 0).mpr h
              rw [hnone] at hfr
              exact absurd hfr (by simp)
        · intro s2 h
          rw [CppOutcome.ok.injEq] at h
          subst h
          exact ⟨rfl, rfl, i, rfl, by omega, fun hlt2 => absurd heq (by omega),
            fun _ => rfl⟩
        · constructor
          · intro h
            exact absurd h (by simp)
          · rintro ⟨-, j, hfr2, hge2⟩
            rw [Option.some.injEq] at hfr2
            subst hfr2
            omega
      · rw [setCpp_high bm i false hge]
        dsimp only
        refine ⟨?_, ?_, ?_⟩
        · constructor
          · intro h
            exact absurd h (by simp)
          · rintro (h | h)
            · exact absurd h hal
            · have hnone := (findRegion_none_iff _ mm 0).mpr h
              rw [hnone] at hfr
              exact absurd hfr (by simp)
        · intro s2 h
          exact absurd h (by simp)
        · constructor
          · intro _
            exact ⟨hal0, i, rfl, hge⟩
          · intro _
            rfl

/-- C9: `free_page` performs no double-free detection.  First, any page
aligned pointer whose physical address lies inside a usable region is freed
without a halt, with no check of the bitmap bit at all; second, freeing a
pointer twice in a row is indistinguishable from freeing it once: the second
call succeeds silently and leaves the state (in particular the already
cleared bit) unchanged. -/
theorem C9_theorem (s : AllocState) (pointer : Nat) :
    ((pointer % U64_LIMIT % PAGE_SIZE = 0 ∧
      ∃ e ∈ s.memmap, e.type = usableType ∧
        e.base ≤ virtual_to_physical s.hhdm (pointer % U64_LIMIT) ∧
        virtual_to_physical s.hhdm (pointer % U64_LIMIT) <
          (e.base + e.length) % U64_LIMIT) →
      ∃ s2, kernel.alloc.free_page s pointer = some s2) ∧
    (∀ s2, kernel.alloc.free_page s pointer = some s2 →
      kernel.alloc.free_page s2 pointer = some s2) := by
  obtain ⟨mm, hd, bm⟩ := s
  constructor
  · rintro ⟨hal, hex⟩
    obtain ⟨i, hfr⟩ := findRegion_some_of_mem _ mm 0 hex
    refine ⟨⟨mm, hd, PageBitmap.set bm i false⟩, ?_⟩
    unfold kernel.alloc.free_page
    simp only
    rw [if_neg (fun hc => hc hal), hfr]
  · intro s2 h
    unfold kernel.alloc.free_page at h ⊢
    simp only at h ⊢
    by_cases hal : pointer % U64_LIMIT % PAGE_SIZE ≠ 0
    · rw [if_pos hal] at h
      exact absurd h (by simp)
    · rw [if_neg hal] at h ⊢
      rcases hfr : findRegion mm (virtual_to_physical hd (pointer % U64_LIMIT)) 0 with _ | i
      · rw [hfr] at h
        exact absurd h (by simp)
      · rw [hfr] at h
        dsimp only at h
        rw [Option.some.injEq] at h
        subst h
        rw [hfr]
        dsimp only
        rw [PageBitmap.set_false_idem]

/-- C9 witness: freeing the HHDM pointer of frame 0 from the state where its
bit is already clear succeeds and changes nothing, exactly as a second
free in a row behaves. -/
theorem C9_witness :
    kernel.alloc.free_page ⟨mm64, 2 ^ 40, 0⟩ (65536 + 2 ^ 40) =
      some ⟨mm64, 2 ^ 40, 0⟩ :=
  (C9_theorem ⟨mm64, 2 ^ 40, 1⟩ (65536 + 2 ^ 40)).2 ⟨mm64, 2 ^ 40, 0⟩ (by decide)

/-- Modelled from the claim wording for C10: the scan behaviour the claim
describes, in which a candidate frame at physical address 0 is "discarded
and the scan continues as if no frame had been found in that region" — that
is, the walk moves to the next entry with the frame counter advanced past
the whole region (`page_index + length / PAGE_SIZE`), instead of frozen at
the position of the discarded hit as the source does. -/
def allocScanSkipZero (bm : Nat) : List MemMapEntry → Nat → Nat × Nat
  | [], pi => (pi, 0)
  | e :: rest, pi =>
    if e.type = usableType then
      match scanRegion bm pi (e.base % U64_LIMIT) (e.length / PAGE_SIZE) with
      | (pi2, pa) =>
        if pa = 0 then allocScanSkipZero bm rest (pi + e.length / PAGE_SIZE)
        else (pi2, pa)
    else allocScanSkipZero bm rest pi

/-- Modelled from the claim wording for C10: `allocate_page` built on the
as-if-region-exhausted scan above. -/
def allocate_pageSkipZero (s : AllocState) : Option (Nat × AllocState) :=
  match allocScanSkipZero s.bitmap s.memmap 0 with
  | (pi, pa) =>
    if pa = 0 then none
    else some (physical_to_virtual s.hhdm pa,
      ⟨s.memmap, s.hhdm, PageBitmap.set s.bitmap pi true⟩)

theorem scanRegion_pa (bm : Nat) :
    ∀ n pi addr pi2 pa, addr < U64_LIMIT →
      scanRegion bm pi addr n = (pi2, pa) → pa = 0 ∨ pa < U64_LIMIT := by
  intro n
  induction n with
  | zero =>
    intro pi addr pi2 pa _ h
    simp only [scanRegion, Prod.mk.injEq] at h
    exact Or.inl h.2.symm
  | succ m ih =>
    intro pi addr pi2 pa haddr h
    by_cases h0 : PageBitmap.get bm pi = true
    · rw [show scanRegion bm pi addr (Nat.succ m) =
          scanRegion bm (pi + 1) ((addr + PAGE_SIZE) % U64_LIMIT) m from by
        simp only [scanRegion, h0, if_true]] at h
      exact ih (pi + 1) _ pi2 pa (Nat.mod_lt _ (by norm_num [U64_LIMIT])) h
    · have h0f : PageBitmap.get bm pi = false := by simpa using h0
      rw [show scanRegion bm pi addr (Nat.succ m) = (pi, addr) from by
        simp only [scanRegion, h0f, Bool.false_eq_true, if_false]] at h
      simp only [Prod.mk.injEq] at h
      right
      omega

theorem allocScan_pa (bm : Nat) :
    ∀ mm pi pi2 pa, allocScan bm mm pi = (pi2, pa) → pa = 0 ∨ pa < U64_LIMIT := by
  intro mm
  induction mm with
  | nil =>
    intro pi pi2 pa h
    simp only [allocScan, Prod.mk.injEq] at h
    exact Or.inl h.2.symm
  | cons e rest ih =>
    intro pi pi2 pa h
    by_cases ht : e.type = usableType
    · simp only [allocScan, ht, if_pos] at h
      rcases hsr : scanRegion bm pi (e.base % U64_LIMIT) (e.length / PAGE_SIZE) with
        ⟨pi2a, paa⟩
      rw [hsr] at h
      dsimp only at h
      by_cases hpaa : paa = 0
      · rw [if_pos hpaa] at h
        exact ih _ pi2 pa h
      · rw [if_neg hpaa] at h
        simp only [Prod.mk.injEq] at h
        rcases scanRegion_pa bm _ pi _ pi2a paa
            (Nat.mod_lt _ (by norm_num [U64_LIMIT])) hsr with h0 | hlt
        · exact absurd h0 hpaa
        · right
          omega
    · simp only [allocScan, ht, if_neg] at h
      exact ih _ pi2 pa h

theorem allocate_page_ne_hhdm (s : AllocState) (v : Nat) (s2 : AllocState)
    (h : kernel.alloc.allocate_page s = some (v, s2)) : v ≠ s.hhdm % U64_LIMIT := by
  obtain ⟨mm, hd, bm⟩ := s
  unfold kernel.alloc.allocate_page at h
  rcases hsc : allocScan bm mm 0 with ⟨pi, pa⟩
  rw [hsc] at h
  dsimp only at h
  by_cases hpa : pa = 0
  · rw [if_pos hpa] at h
    exact absurd h (by simp)
  · rw [if_neg hpa] at h
    rw [Option.some.injEq, Prod.mk.injEq] at h
    obtain ⟨hv, _⟩ := h
    have hlt : pa < U64_LIMIT := by
      rcases allocScan_pa bm mm 0 pi pa hsc with h0 | hlt
      · exact absurd h0 hpa
      · exact hlt
    subst hv
    unfold physical_to_virtual
    have hU : U64_LIMIT = 18446744073709551616 := by norm_num [U64_LIMIT]
    intro hc
    dsimp only at hc
    rw [hU] at hc hlt
    omega

theorem allocScan_skip_nonusable (bm : Nat) :
    ∀ pre, (∀ x ∈ pre, x.type ≠ usableType) →
      ∀ tail pi, allocScan bm (pre ++ tail) pi = allocScan bm tail pi := by
  intro pre
  induction pre with
  | nil =>
    intro _ tail pi
    rfl
  | cons x pre2 ih =>
    intro h tail pi
    have hx : ¬(x.type = usableType) := h x (by simp)
    rw [show (x :: pre2) ++ tail = x :: (pre2 ++ tail) from rfl]
    simp only [allocScan, hx, if_neg, if_false]
    exact ih (fun y hy => h y (List.mem_cons_of_mem _ hy)) tail pi

theorem allocScan_zero_head (bm : Nat) (e : MemMapEntry) (rest : List MemMapEntry)
    (he : e.type = usableType) (hbase : e.base = 0) (hlen : PAGE_SIZE ≤ e.length)
    (hfree : PageBitmap.get bm 0 = false) :
    allocScan bm (e :: rest) 0 = allocScan bm rest 0 := by
  obtain ⟨n2, hn⟩ : ∃ n2, e.length / PAGE_SIZE = n2 + 1 := by
    have h1 : 1 ≤ e.length / PAGE_SIZE := by
      rw [Nat.le_div_iff_mul_le (by norm_num [PAGE_SIZE] : 0 < PAGE_SIZE)]
      simpa using hlen
    exact ⟨e.length / PAGE_SIZE - 1, by omega⟩
  have hsr : scanRegion bm 0 (e.base % U64_LIMIT) (e.length / PAGE_SIZE) = (0, 0) := by
    rw [hbase, Nat.zero_mod, hn]
    show scanRegion bm 0 0 (Nat.succ n2) = (0, 0)
    simp only [scanRegion, hfree, Bool.false_eq_true, if_false]
  simp only [allocScan, he, if_pos]
  rw [hsr]
  simp

/-- C10 counterexample: in the reachable state over `mmZero` with bitmap `2`
(frame 0 free at physical address 0, frame 1 used, frame 2 free), the real
`allocate_page` returns the pointer of the frame at `0x8000` but sets bit 0
(the frame counter stays frozen at the discarded zero-address hit), while
the claimed as-if-region-exhausted behaviour would set bit 2; the two
results differ, refuting "the scan continues as if no frame had been found
in that region". -/
theorem C10_counterexample :
    kernel.alloc.allocate_page ⟨mmZero, 2 ^ 40, 2⟩ =
      some (2 ^ 40 + 0x8000, ⟨mmZero, 2 ^ 40, 3⟩) ∧
    allocate_pageSkipZero ⟨mmZero, 2 ^ 40, 2⟩ =
      some (2 ^ 40 + 0x8000, ⟨mmZero, 2 ^ 40, 6⟩) ∧
    kernel.alloc.allocate_page ⟨mmZero, 2 ^ 40, 2⟩ ≠
      allocate_pageSkipZero ⟨mmZero, 2 ^ 40, 2⟩ := by decide

/-- C10 (amended): when the first usable region of the memory map starts at
physical address 0 (any earlier entries being non-usable) and frame index 0
is free, `allocate_page` never returns the HHDM virtual address of that
frame — the candidate at physical 0 is discarded because 0 is the internal
not-found sentinel — but the scan then resumes at the next region with the
frame counter left at the discarded hit (not advanced past the region):
the walk over the remaining entries is exactly the walk that starts them at
frame index 0. -/
theorem C10_theorem (s : AllocState) (pre rest : List MemMapEntry) (e : MemMapEntry)
    (hsplit : s.memmap = pre ++ e :: rest)
    (hpre : ∀ x ∈ pre, x.type ≠ usableType)
    (he : e.type = usableType) (hbase : e.base = 0)
    (hlen : PAGE_SIZE ≤ e.length)
    (hfree : PageBitmap.get s.bitmap 0 = false) :
    allocScan s.bitmap s.memmap 0 = allocScan s.bitmap rest 0 ∧
    (∀ v s2, kernel.alloc.allocate_page s = some (v, s2) → v ≠ s.hhdm % U64_LIMIT) := by
  constructor
  · rw [hsplit, allocScan_skip_nonusable s.bitmap pre hpre (e :: rest) 0,
      allocScan_zero_head s.bitmap e rest he hbase hlen hfree]
  · intro v s2 h
    exact allocate_page_ne_hhdm s v s2 h

/-- C10 witness: the amended theorem applied to the reachable state over
`mmZero` with bitmap `2`: the scan over the full map equals the scan that
starts at the second region with the counter still at 0. -/
theorem C10_witness :
    allocScan 2 mmZero 0 = allocScan 2 [⟨0x8000, 4096, usableType⟩] 0 :=
  (C10_theorem ⟨mmZero, 2 ^ 40, 2⟩ [] [⟨0x8000, 4096, usableType⟩]
    ⟨0, 8192, usableType⟩ rfl (by simp) rfl rfl (by decide) (by decide)).1

theorem markBitmapFrames_get (skipped : Nat) :
    ∀ n j, PageBitmap.get (markBitmapFrames 0 skipped n) j =
      decide (skipped ≤ j ∧ j < skipped + n) := by
  intro n
  induction n with
  | zero =>
    intro j
    show PageBitmap.get 0 j = _
    rw [show PageBitmap.get 0 j = false from Nat.zero_testBit j]
    have hno : ¬(skipped ≤ j ∧ j < skipped + 0) := by omega
    simp [hno]
  | succ m ih =>
    intro j
    show PageBitmap.get
      (PageBitmap.set (markBitmapFrames 0 skipped m) (m + skipped) true) j = _
    rw [PageBitmap.get_set]
    by_cases hj : j = m + skipped
    · rw [if_pos hj]
      have hyes : skipped ≤ j ∧ j < skipped + (m + 1) := by omega
      simp [hyes]
    · rw [if_neg hj, ih j, decide_eq_decide]
      omega

theorem findBitmapSpot_region (sz : Nat) :
    ∀ mm lb acc skip base, regionsOkB lb mm = true →
      findBitmapSpot sz mm acc = some (skip, base) →
      lb ≤ base ∧ base % PAGE_SIZE = 0 ∧
        ∃ len, sz ≤ len ∧ base + len < U64_LIMIT ∧
          ∀ off, off < len →
            findRegion mm (base + off) acc = some (skip + off / PAGE_SIZE) := by
  intro mm
  induction mm with
  | nil =>
    intro lb acc skip base _ h
    exact absurd h (by simp [findBitmapSpot])
  | cons e rest ih =>
    intro lb acc skip base hok hspot
    by_cases ht : e.type = usableType
    · simp only [regionsOkB, ht, if_pos] at hok
      rw [Bool.and_eq_true, Bool.and_eq_true, Bool.and_eq_true] at hok
      obtain ⟨⟨⟨h1, h2⟩, h3⟩, h4⟩ := hok
      rw [decide_eq_true_eq] at h1 h2 h3
      simp only [findBitmapSpot, ht, if_pos] at hspot
      by_cases hfit : sz ≤ e.length
      · rw [if_pos hfit] at hspot
        rw [Option.some.injEq, Prod.mk.injEq] at hspot
        obtain ⟨rfl, rfl⟩ := hspot
        refine ⟨h1, h2, e.length, hfit, h3, ?_⟩
        intro off hoff
        simp only [findRegion, ht, if_pos]
        rw [if_pos ⟨by omega, by rw [Nat.mod_eq_of_lt h3]; omega⟩]
        rw [Nat.add_sub_cancel_left]
      · rw [if_neg hfit] at hspot
        obtain ⟨hlb2, hal2, len2, hsz2, hlt2, hfr2⟩ :=
          ih (e.base + e.length) (acc + e.length / PAGE_SIZE) skip base h4 hspot
        refine ⟨by omega, hal2, len2, hsz2, hlt2, ?_⟩
        intro off hoff
        simp only [findRegion, ht, if_pos]
        rw [if_neg]
        · exact hfr2 off hoff
        · rw [Nat.mod_eq_of_lt h3]
          omega
    · simp only [regionsOkB, ht, if_neg] at hok
      simp only [findBitmapSpot, ht, if_neg] at hspot
      obtain ⟨hlb2, hal2, len2, hsz2, hlt2, hfr2⟩ := ih lb acc skip base hok hspot
      refine ⟨hlb2, hal2, len2, hsz2, hlt2, ?_⟩
      intro off hoff
      simp only [findRegion, ht, if_neg]
      exact hfr2 off hoff

/-- C2 counterexample: on the one-region 64-page map, after `init` the
bitmap storage occupies frame 0 and its bit is set (bitmap `1`); freeing
the page-aligned HHDM address of that frame before any allocation is NOT
rejected: `free_page` returns successfully and clears the bit (bitmap `0`),
because its only checks are pointer alignment and region membership. -/
theorem C2_counterexample :
    kernel.alloc.init mm64 (2 ^ 40) = some ⟨mm64, 2 ^ 40, 1⟩ ∧
    kernel.alloc.free_page ⟨mm64, 2 ^ 40, 1⟩ (2 ^ 40 + 65536) =
      some ⟨mm64, 2 ^ 40, 0⟩ := by decide

/-- C2 (amended): after `init()` on a well-formed memory map with a page
aligned HHDM offset, every frame index backing the bitmap storage
(`skipped_pages` up to `skipped_pages + bitmap_page_size - 1`) has its
bitmap bit set; but calling `free_page` on the page-aligned HHDM address of
any of those frames, before any explicit `allocate_page` call, is NOT
rejected as a fatal usage violation: it succeeds and clears that very bit,
because `free_page` only checks alignment and usable-region membership. -/
theorem C2_theorem (mm : List MemMapEntry) (hhdm : Nat) (s : AllocState)
    (skip base i : Nat)
    (hok : regionsOkB 1 mm = true) (hh : hhdm % PAGE_SIZE = 0)
    (hinit : kernel.alloc.init mm hhdm = some s)
    (hspot : findBitmapSpot (bitmap_array_size mm) mm 0 = some (skip, base)) :
    (∀ j, j < bitmap_page_size mm → PageBitmap.get s.bitmap (skip + j) = true) ∧
    (i < bitmap_page_size mm →
      ∃ s2, kernel.alloc.free_page s
          (physical_to_virtual hhdm (base + i * PAGE_SIZE)) = some s2 ∧
        PageBitmap.get s2.bitmap (skip + i) = false) := by
  obtain ⟨skip2, base2, hspot2, hs⟩ := init_inv mm hhdm s hinit
  rw [hspot] at hspot2
  rw [Option.some.injEq, Prod.mk.injEq] at hspot2
  obtain ⟨rfl, rfl⟩ := hspot2
  subst hs
  obtain ⟨hlb, hal, len, hsz, hlt, hfr⟩ :=
    findBitmapSpot_region (bitmap_array_size mm) mm 1 0 skip base hok hspot
  have hP : PAGE_SIZE = 4096 := rfl
  have hU : U64_LIMIT = 18446744073709551616 := by norm_num [U64_LIMIT]
  constructor
  · intro j hj
    show PageBitmap.get (markBitmapFrames 0 skip (bitmap_page_size mm)) (skip + j) = true
    rw [markBitmapFrames_get, decide_eq_true_eq]
    omega
  · intro hi
    have hoff : i * PAGE_SIZE < len := by
      have hbps : bitmap_page_size mm =
          (bitmap_array_size mm + PAGE_SIZE - 1) / PAGE_SIZE := rfl
      rw [hbps, hP] at hi
      rw [hP]
      omega
    have hfri := hfr (i * PAGE_SIZE) hoff
    have hoffal : i * PAGE_SIZE % PAGE_SIZE = 0 := Nat.mul_mod_left i PAGE_SIZE
    have hplt : base + i * PAGE_SIZE < U64_LIMIT := by omega
    have hva : physical_to_virtual hhdm (base + i * PAGE_SIZE) % U64_LIMIT %
        PAGE_SIZE = 0 := by
      unfold physical_to_virtual
      rw [Nat.mod_mod_of_dvd _ (dvd_refl _),
        Nat.mod_mod_of_dvd _ (by rw [hP, hU]; norm_num : PAGE_SIZE ∣ U64_LIMIT)]
      rw [hP] at hal hh hoffal ⊢
      omega
    have hvp : virtual_to_physical hhdm
        (physical_to_virtual hhdm (base + i * PAGE_SIZE) % U64_LIMIT) =
        base + i * PAGE_SIZE := by
      unfold virtual_to_physical physical_to_virtual
      rw [Nat.mod_mod_of_dvd _ (dvd_refl _)]
      rw [hU]
      rw [hU] at hplt
      omega
    unfold kernel.alloc.free_page
    simp only
    rw [if_neg (fun hc => hc hva), hvp, hfri]
    dsimp only
    refine ⟨_, rfl, ?_⟩
    have hidx : i * PAGE_SIZE / PAGE_SIZE = i := by
      rw [hP]
      omega
    show PageBitmap.get (PageBitmap.set (markBitmapFrames 0 skip (bitmap_page_size mm))
      (skip + i * PAGE_SIZE / PAGE_SIZE) false) (skip + i) = false
    rw [hidx, PageBitmap.get_set, if_pos rfl]

/-- C2 witness: the amended theorem applied to the one-region 64-page map,
where the bitmap occupies exactly frame 0. -/
theorem C2_witness :
    (∀ j, j < bitmap_page_size mm64 →
      PageBitmap.get (AllocState.bitmap ⟨mm64, 2 ^ 40, 1⟩) (0 + j) = true) ∧
    (0 < bitmap_page_size mm64 →
      ∃ s2, kernel.alloc.free_page ⟨mm64, 2 ^ 40, 1⟩
          (physical_to_virtual (2 ^ 40) (65536 + 0 * PAGE_SIZE)) = some s2 ∧
        PageBitmap.get s2.bitmap (0 + 0) = false) :=
  C2_theorem mm64 (2 ^ 40) ⟨mm64, 2 ^ 40, 1⟩ 0 65536 0 (by decide) (by decide)
    (by decide) (by decide)
